import Mathlib

/-!
# Verification of the bit-video codec (`image-tools` + `simulations::BitGrid`)

Shallow embedding of the packed bit-grid (`simulations/src/bitgrid.rs`) and of
the video container codec (`image-tools/src/{codec,encoder,decoder}.rs`).

Conventions of the embedding:
* bytes are `Nat`s (one per `u8`); streams are `List Nat`;
* `i16` arithmetic is modelled on `Int` with an explicit `wrap16` at every
  operation that can overflow, and with `Int.tmod`/`Int.tdiv` for the
  truncated `%`/`/` of the source language;
* the `u8` run-length counter wraps, modelled with `% 256` (the release-mode
  semantics the spec documents as "silently truncate/wrap");
* panics of the source (`unimplemented!`, `copy_from_slice` length mismatch,
  header too short, unsupported version) are modelled as `none`.
-/

namespace PicoCodec

/-- Interpret an unbounded integer as a signed 16-bit value: the result of an
`i16` operation whose mathematical value is `z`. -/
def wrap16 (z : Int) : Int := (z + 32768) % 65536 - 32768

/-- `simulations::BitGrid`: a `width × height` grid of booleans packed 8 per
byte, row-major.  `buf` models the backing `Vec<u8>`; `width`/`height` are
`i16` in the source and non-negative by construction, so they are stored as
`Nat` and cast to `Int` where the source does `i16` arithmetic. -/
structure BitGrid where
  buf : List Nat
  width : Nat
  height : Nat
deriving DecidableEq

/-- `BitGrid::new`: a zero-filled buffer of `ceil(width/8) * height` bytes. -/
def BitGrid.new (width height : Nat) : BitGrid :=
  { buf := List.replicate (((width + 7) / 8) * height) 0, width := width, height := height }

/-- `BitGrid::idx`: wrap the coordinates one period along each axis, then
compute the flat byte index and the bit offset.  Every operation is `i16`
arithmetic in the source, hence the `wrap16`s; `%` and `/` truncate toward
zero (`Int.tmod`/`Int.tdiv`).  The second component models the `bit as u8`
cast of the result. -/
def BitGrid.idx (g : BitGrid) (x y : Int) : Int × Nat :=
  let x := Int.tmod (wrap16 (x + (g.width : Int))) (g.width : Int)
  let y := Int.tmod (wrap16 (y + (g.height : Int))) (g.height : Int)
  let stride := Int.tdiv (wrap16 ((g.width : Int) + 7)) 8
  (wrap16 (Int.tdiv x 8 + wrap16 (y * stride)), ((Int.tmod x 8).emod 256).toNat)

/-- `BitGrid::get`.  `self.buf[idx]` panics in the source when `idx` is
negative (cast to a huge `usize`) or out of range; that case is modelled as
reading the byte `0` (no theorem below depends on it).  `1u8 << bit` masks
the shift amount to `0..7` in release builds, hence the `% 8`. -/
def BitGrid.get (g : BitGrid) (x y : Int) : Bool :=
  let p := g.idx x y
  Nat.testBit (g.buf.getD p.1.toNat 0) (p.2 % 8)

/-- `BitGrid::set`: returns the updated grid and the previous value.
`List.set` ignores an out-of-range index where the source would panic
(again unreachable in the theorems below). -/
def BitGrid.set (g : BitGrid) (x y : Int) (elem : Bool) : BitGrid × Bool :=
  let p := g.idx x y
  let i := p.1.toNat
  let bit := p.2 % 8
  let byte := g.buf.getD i 0
  let old := Nat.testBit byte bit
  ({ g with buf := g.buf.set i ((byte &&& (255 ^^^ (1 <<< bit))) ||| ((if elem then 1 else 0) <<< bit)) },
   old)

/-- `BitGrid::flip`: toggles the bit, returning the previous value. -/
def BitGrid.flip (g : BitGrid) (x y : Int) : BitGrid × Bool :=
  let p := g.idx x y
  let i := p.1.toNat
  let bit := p.2 % 8
  let byte := g.buf.getD i 0
  ({ g with buf := g.buf.set i (byte ^^^ (1 <<< bit)) }, Nat.testBit byte bit)

/-- `BitGrid::clear`: zero-fill the backing buffer. -/
def BitGrid.clear (g : BitGrid) : BitGrid :=
  { g with buf := List.replicate g.buf.length 0 }

/-- `BitGrid::dims`. -/
def BitGrid.dims (g : BitGrid) : Nat × Nat := (g.width, g.height)

/-- `BitGrid::as_bytes`. -/
def BitGrid.as_bytes (g : BitGrid) : List Nat := g.buf

/-- Well-formedness as the Rust type maintains it: the backing buffer has
exactly `ceil(width/8) * height` bytes. -/
def BitGrid.WF (g : BitGrid) : Prop :=
  g.buf.length = ((g.width + 7) / 8) * g.height

/-- Dimensions small enough that no `i16` operation in `BitGrid::idx` can
wrap for in-range coordinates: `x + width` and `y + height` stay below
2^15, and so does the flat byte index computation. -/
def DimsSafe (w h : Nat) : Prop :=
  2 * w ≤ 32768 ∧ 2 * h ≤ 32768 ∧ (h - 1) * ((w + 7) / 8) + (w - 1) / 8 ≤ 32767

instance (w h : Nat) : Decidable (DimsSafe w h) := by
  unfold DimsSafe; infer_instance

instance (g : BitGrid) : Decidable g.WF := by
  unfold BitGrid.WF; infer_instance

/-! ## Container format (`codec.rs`) -/

/-- The bytes of `b"BITVIDEO\xF0\x9F\x8D\x8E"`. -/
def MAGIC : List Nat := [66, 73, 84, 86, 73, 68, 69, 79, 240, 159, 141, 142]

def VERSION : Nat := 2

/-- Little-endian byte encodings and field readers (the Rust code reads and
writes the structs by plain-old-data byte reinterpretation, which on the
target is exactly little-endian field order). -/
def u16le (n : Nat) : List Nat := [n % 256, n / 256 % 256]

def u32le (n : Nat) : List Nat :=
  [n % 256, n / 256 % 256, n / 65536 % 256, n / 16777216 % 256]

def u16at (bs : List Nat) (i : Nat) : Nat := bs.getD i 0 + 256 * bs.getD (i + 1) 0

def u32at (bs : List Nat) (i : Nat) : Nat :=
  bs.getD i 0 + 256 * bs.getD (i + 1) 0 + 65536 * bs.getD (i + 2) 0 +
    16777216 * bs.getD (i + 3) 0

/-- `CodecHeader`: 12-byte magic, u32 version, u32 frame count, u16 width,
u16 height, 104 reserved bytes (`[u32; 26]` in the source). -/
structure CodecHeader where
  magic : List Nat
  version : Nat
  n_frames : Nat
  width : Nat
  height : Nat
  reserved : List Nat
deriving DecidableEq

/-- `CodecHeader::SIZE = 128`. -/
def CodecHeader.SIZE : Nat := 128

/-- `CodecHeader::new`: fixed magic and version, zeroed reserved region.
The source casts `n_frames as u32` and `width/height as u16`. -/
def CodecHeader.new (n_frames width height : Nat) : CodecHeader :=
  { magic := MAGIC, version := VERSION, n_frames := n_frames % 4294967296,
    width := width % 65536, height := height % 65536,
    reserved := List.replicate 104 0 }

def CodecHeader.toBytes (h : CodecHeader) : List Nat :=
  h.magic ++ u32le h.version ++ u32le h.n_frames ++ u16le h.width ++
    u16le h.height ++ h.reserved

/-- `CodecHeader::read`: `None` when fewer than 128 bytes are available, no
semantic validation. -/
def CodecHeader.read (bs : List Nat) : Option CodecHeader :=
  if 128 ≤ bs.length then
    some { magic := bs.take 12, version := u32at bs 12, n_frames := u32at bs 16,
           width := u16at bs 20, height := u16at bs 22,
           reserved := (bs.drop 24).take 104 }
  else none

/-- `CodecChunkCompressedFrame` (with its embedded `CodecChunkCommon`):
u16 chunk kind, u16 payload size, u8 compression kind, u8 background flag. -/
structure CodecChunkCompressedFrame where
  kind : Nat
  size : Nat
  compression : Nat
  background_set : Nat
deriving DecidableEq

def CodecChunkCompressedFrame.SIZE : Nat := 6

def CodecChunkCompressedFrame.toBytes (c : CodecChunkCompressedFrame) : List Nat :=
  u16le c.kind ++ u16le c.size ++ [c.compression % 256, c.background_set % 256]

/-- `CodecChunkCompressedFrame::read`: `None` when fewer than 6 bytes remain. -/
def CodecChunkCompressedFrame.read (bs : List Nat) : Option CodecChunkCompressedFrame :=
  if 6 ≤ bs.length then
    some { kind := u16at bs 0, size := u16at bs 2, compression := bs.getD 4 0,
           background_set := bs.getD 5 0 }
  else none

/-! ## Encoder (`encoder.rs`) -/

/-- `compress_uncompressed`: chunk header (kind `COMPRESSED_FRAME = 1`,
compression `UNCOMPRESSED = 0`) followed by the raw packed bytes. -/
def compress_uncompressed (frame : BitGrid) : List Nat :=
  let bytes := frame.as_bytes
  CodecChunkCompressedFrame.toBytes
      { kind := 1, size := bytes.length % 65536, compression := 0, background_set := 0 }
    ++ bytes

/-- The row-major pixel traversal of the encoder loop
(`for y in 0..height { for x in 0..width { frame.get(x, y) } }`). -/
def BitGrid.scanOrder (g : BitGrid) : List Bool :=
  (List.range g.height).flatMap fun y : Nat => (List.range g.width).map fun x : Nat => g.get x y

/-- One step of the run-length loop body: state is (current colour, `u8`
counter, bytes emitted so far).  The counter addition wraps at 256. -/
def rleStep (s : Bool × Nat × List Nat) (px : Bool) : Bool × Nat × List Nat :=
  if px ≠ s.1 then (px, 1, s.2.2 ++ [s.2.1])
  else (s.1, (s.2.1 + 1) % 256, s.2.2)

/-- The run-length payload: fold the loop body over the row-major scan,
then flush the final counter if it is nonzero. -/
def rlePayload (frame : BitGrid) : List Nat :=
  let s := frame.scanOrder.foldl rleStep (false, 0, [])
  s.2.2 ++ (if s.2.1 > 0 then [s.2.1] else [])

/-- `compress_runlength`: chunk header (compression `RUN_LENGTH_ENCODING = 1`)
followed by the run-length payload. -/
def compress_runlength (frame : BitGrid) : List Nat :=
  CodecChunkCompressedFrame.toBytes
      { kind := 1, size := (rlePayload frame).length % 65536, compression := 1,
        background_set := 0 }
    ++ rlePayload frame

/-- `VideoEncoder`: the queued frames and the remembered dimensions of the
first frame ever pushed. -/
structure VideoEncoder where
  frames : List BitGrid
  dims : Option (Nat × Nat)
deriving DecidableEq

def VideoEncoder.new : VideoEncoder := { frames := [], dims := none }

def VideoEncoder.frame_count (e : VideoEncoder) : Nat := e.frames.length

/-- `VideoEncoder::push`: record the first frame's dimensions, queue the frame. -/
def VideoEncoder.push (e : VideoEncoder) (frame : BitGrid) : VideoEncoder :=
  { frames := e.frames ++ [frame],
    dims := match e.dims with
      | none => some frame.dims
      | some d => some d }

/-- The per-frame body of `encode_to`: produce both encodings and write
whichever is smaller, preferring uncompressed on a tie. -/
def encodeFrameChunk (frame : BitGrid) : List Nat :=
  let uncompressed_bytes := compress_uncompressed frame
  let runlength_bytes := compress_runlength frame
  if uncompressed_bytes.length ≤ runlength_bytes.length then uncompressed_bytes
  else runlength_bytes

/-- `VideoEncoder::encode_to`: header (a boring zero header when no frames
were pushed) followed by one chosen chunk per frame; the frame queue is
drained.  Returns the encoder state after the call and the bytes written. -/
def VideoEncoder.encode_to (e : VideoEncoder) : VideoEncoder × List Nat :=
  let header := match e.dims with
    | some (w, h) => CodecHeader.new e.frames.length w h
    | none => CodecHeader.new 0 0 0
  ({ e with frames := [] }, header.toBytes ++ (e.frames.map encodeFrameChunk).flatten)

/-! ## Decoder (`decoder.rs`) -/

/-- The view returned by `next_frame` (the model copies the bitmap where the
source hands out a reference to the decoder's persistent grid). -/
structure Frame where
  id : Nat
  bitmap : BitGrid
  background_set : Bool
deriving DecidableEq

structure VideoDecoder where
  bytes : List Nat
  curr : Nat
  bitmap : BitGrid
  frame_num : Nat
deriving DecidableEq

/-- `VideoDecoder::new`: parse the header eagerly.  The source panics when
fewer than 128 bytes are available or the version is not 2; both are
modelled as `none`. -/
def VideoDecoder.new (bytes : List Nat) : Option VideoDecoder :=
  if bytes.length < 128 then none
  else match CodecHeader.read (bytes.take 128) with
    | none => none
    | some header =>
      if header.version ≠ 2 then none
      else some { bytes := bytes, curr := 128,
                  bitmap := BitGrid.new header.width header.height, frame_num := 0 }

def VideoDecoder.is_finished (d : VideoDecoder) : Bool := d.curr == d.bytes.length

/-- `VideoDecoder::reset`: rewind the cursor to just past the header, clear
the persistent grid, zero the frame counter. -/
def VideoDecoder.reset (d : VideoDecoder) : VideoDecoder :=
  { d with curr := CodecHeader.SIZE, bitmap := d.bitmap.clear, frame_num := 0 }

/-- `VideoDecoder::next`: split off the next `n` bytes if that many remain,
otherwise pin the cursor at the end of the buffer and return nothing. -/
def VideoDecoder.next (d : VideoDecoder) (n : Nat) : Option (List Nat) × VideoDecoder :=
  if d.curr + n ≤ d.bytes.length then
    (some ((d.bytes.drop d.curr).take n), { d with curr := d.curr + n })
  else (none, { d with curr := d.bytes.length })

/-- `expand_uncompressed`: bulk copy of the payload over the grid's buffer;
`copy_from_slice` panics when the lengths differ, modelled as `none`. -/
def expand_uncompressed (bitmap : BitGrid) (in_bytes : List Nat) : Option BitGrid :=
  if in_bytes.length = bitmap.buf.length then some { bitmap with buf := in_bytes }
  else none

/-- `in_bytes.chunks(2)` together with `pair.get(1).unwrap_or(&0)`: the
payload as (unset run, set run) byte pairs, a missing trailing byte read
as 0. -/
def rlePairs : List Nat → List (Nat × Nat)
  | [] => []
  | [a] => [(a, 0)]
  | a :: b :: rest => (a, b) :: rlePairs rest

/-- The skip loop of `expand_runlength`: advance over `n` cells, wrapping
`x` to the next row at the grid width.  `x`/`y` are `i16` in the source;
every use in this development keeps them far below 2^15, so they are
modelled as `Nat`. -/
def skipCells (w : Nat) : Nat → Nat × Nat → Nat × Nat
  | 0, p => p
  | n + 1, (x, y) =>
    let x := x + 1
    if w ≤ x then skipCells w n (0, y + 1) else skipCells w n (x, y)

/-- The write loop of `expand_runlength`: set `n` cells to `true`. -/
def writeCells : Nat → BitGrid × Nat × Nat → BitGrid × Nat × Nat
  | 0, st => st
  | n + 1, (g, x, y) =>
    let g := (g.set x y true).1
    let x := x + 1
    if g.width ≤ x then writeCells n (g, 0, y + 1) else writeCells n (g, x, y)

/-- The loop body of `expand_runlength` for one (unset run, set run) pair:
skip the unset cells, then write the set cells. -/
def expandStep (st : BitGrid × Nat × Nat) (pr : Nat × Nat) : BitGrid × Nat × Nat :=
  let p1 := skipCells st.1.width pr.1 (st.2.1, st.2.2)
  writeCells pr.2 (st.1, p1.1, p1.2)

/-- `expand_runlength`: walk the payload two bytes at a time, skipping unset
runs and writing set runs across the grid in row-major order. -/
def expand_runlength (bitmap : BitGrid) (in_bytes : List Nat) : BitGrid :=
  ((rlePairs in_bytes).foldl expandStep (bitmap, 0, 0)).1

/-- `VideoDecoder::next_frame`.  The outer `Option` models the panicking
paths of the source (`unimplemented!` on an unknown compression kind and the
`copy_from_slice` length mismatch); `some (res, d')` is a normal return with
result `res` and decoder state `d'`.  Note the faithful modelling of the
`mem::swap` dance: the persistent grid is swapped out for a fresh 0×0 grid
before the payload is read, so the early return on a truncated payload
leaves the 0×0 dummy in the decoder. -/
def VideoDecoder.next_frame (d : VideoDecoder) : Option (Option Frame × VideoDecoder) :=
  match d.next 6 with
  | (none, d1) => some (none, d1)
  | (some hdr, d1) =>
    match CodecChunkCompressedFrame.read hdr with
    | none => some (none, d1)
    | some chunk =>
      let saved := d1.bitmap
      let d2 := { d1 with bitmap := BitGrid.new 0 0 }
      match d2.next chunk.size with
      | (none, d3) => some (none, d3)
      | (some payload, d3) =>
        if chunk.compression = 0 then
          match expand_uncompressed saved.clear payload with
          | none => none
          | some bm =>
            some (some { id := d3.frame_num + 1, bitmap := bm, background_set := false },
                  { d3 with bitmap := bm, frame_num := d3.frame_num + 1 })
        else if chunk.compression = 1 then
          let bm := expand_runlength saved.clear payload
          some (some { id := d3.frame_num + 1, bitmap := bm, background_set := false },
                { d3 with bitmap := bm, frame_num := d3.frame_num + 1 })
        else none

/-- Call `next_frame` up to `fuel` times, collecting frames until the first
end-of-stream result; `none` when a call panics. -/
def decodeAll : Nat → VideoDecoder → Option (List Frame × VideoDecoder)
  | 0, d => some ([], d)
  | fuel + 1, d =>
    match d.next_frame with
    | none => none
    | some (none, d1) => some ([], d1)
    | some (some f, d1) =>
      match decodeAll fuel d1 with
      | none => none
      | some (fs, dend) => some (f :: fs, dend)

/-- Decode `n` frames, `reset`, and repeat, collecting the frames of each of
the `k` passes. -/
def replayAll (n : Nat) : Nat → VideoDecoder → Option (List (List Frame))
  | 0, _ => some []
  | k + 1, d =>
    match decodeAll n d with
    | none => none
    | some (fs, d1) =>
      match replayAll n k d1.reset with
      | none => none
      | some rest => some (fs :: rest)

/-! ## Derived definitions used to state and prove the claims -/

/-- Direct (non-wrapping) bit access: the form `BitGrid::get` takes for
in-range coordinates on safe dimensions (proved below). -/
def BitGrid.getN (g : BitGrid) (x y : Nat) : Bool :=
  Nat.testBit (g.buf.getD (x / 8 + y * ((g.width + 7) / 8)) 0) (x % 8)

/-- Direct (non-wrapping) bit update, the in-range form of `BitGrid::set`. -/
def BitGrid.setN (g : BitGrid) (x y : Nat) (elem : Bool) : BitGrid :=
  let i := x / 8 + y * ((g.width + 7) / 8)
  let byte := g.buf.getD i 0
  { g with
    buf := g.buf.set i
      ((byte &&& (255 ^^^ (1 <<< (x % 8)))) ||| ((if elem then 1 else 0) <<< (x % 8))) }

/-- The first `m` rows of the row-major scan (`scanOrder` is `rowsUpTo g g.height`). -/
def rowsUpTo (g : BitGrid) (m : Nat) : List Bool :=
  (List.range m).flatMap fun y : Nat => (List.range g.width).map fun x : Nat => g.get x y

/-- Increment the head of a run-length list (`[]` counts as a zero head). -/
def bump : List Nat → List Nat
  | [] => [1]
  | n :: rest => (n + 1) :: rest

/-- The exact maximal-run decomposition of `l` relative to a current colour
`c`: the first entry is the length of the leading run of `c` (possibly 0),
the remaining entries alternate colours and are positive. -/
def runsFromC (c : Bool) : List Bool → List Nat
  | [] => []
  | b :: t => if b = c then bump (runsFromC c t) else 0 :: bump (runsFromC (!c) t)

/-- Maximal run lengths in encoder order: alternating colours starting with
the "unset" (`false`) run, whose length may be 0. -/
def runsSpec (l : List Bool) : List Nat := runsFromC false l

/-- All maximal runs fit in the `u8` counter. -/
def RunsBounded (l : List Bool) : Prop := ∀ n ∈ runsSpec l, n ≤ 255

instance (l : List Bool) : Decidable (RunsBounded l) := by
  unfold RunsBounded; infer_instance

/-- What the run-length loop emits when started with counter `cnt` on a run
decomposition: each run contributes its length (merged into `cnt` for the
first) reduced mod 256, and a final zero counter is not flushed. -/
def mergeEmit (cnt : Nat) : List Nat → List Nat
  | [] => if cnt > 0 then [cnt] else []
  | n :: rest =>
    match rest with
    | [] => if (cnt + n) % 256 > 0 then [(cnt + n) % 256] else []
    | _ :: _ => (cnt + n) % 256 :: mergeEmit 0 rest

/-- Run lengths as the encoder stores them: each reduced mod 256 (the `u8`
counter wraps), and a final byte of 0 omitted (the encoder only flushes a
nonzero final counter). -/
def wrapRuns (ns : List Nat) : List Nat :=
  let m := ns.map fun n => n % 256
  if m.getLast? = some 0 then m.dropLast else m

/-- The boolean sequence denoted by a list of (unset run, set run) pairs. -/
def pairsToBools : List (Nat × Nat) → List Bool
  | [] => []
  | (nb, nw) :: rest => List.replicate nb false ++ List.replicate nw true ++ pairsToBools rest

/-- The grid contents the decoder reconstructs from one encoded frame chunk:
the frame's own bytes for an uncompressed chunk, or the run-length expansion
into a cleared grid. -/
def decodedGrid (g : BitGrid) : BitGrid :=
  if (compress_uncompressed g).length ≤ (compress_runlength g).length then
    { buf := g.buf, width := g.width, height := g.height }
  else
    expand_runlength
      { buf := List.replicate (((g.width + 7) / 8) * g.height) 0,
        width := g.width, height := g.height }
      (rlePayload g)

/-- The frame views produced for a list of encoded grids, starting after
`k` already-decoded frames. -/
def framesFor (k : Nat) : List BitGrid → List Frame
  | [] => []
  | g :: gs =>
    { id := k + 1, bitmap := decodedGrid g, background_set := false } :: framesFor (k + 1) gs

/-! ## Concrete instances examined in the claim analyses -/

/-- A default frame for `List.getD` access. -/
def frame0 : Frame := { id := 0, bitmap := BitGrid.new 0 0, background_set := false }

/-- A 2×2 grid with only the cell (1, 1) set. -/
def g22 : BitGrid := ⟨[0, 2], 2, 2⟩

/-- A 255×1 grid with every pixel set: a single set run of length 255. -/
def g255 : BitGrid := ⟨List.replicate 31 255 ++ [127], 255, 1⟩

/-- A 256×1 grid with every pixel set: a single set run of length 256,
which overflows the `u8` run counter. -/
def g256 : BitGrid := ⟨List.replicate 32 255, 256, 1⟩

/-- A 257×1 grid whose first 256 pixels are unset and whose last pixel is
set: the leading unset run of length 256 wraps to the byte 0. -/
def g257 : BitGrid := ((BitGrid.new 257 1).set 256 0 true).1

/-- A 4×1 grid with only the cell (3, 0) set. -/
def g41 : BitGrid := ((BitGrid.new 4 1).set 3 0 true).1

/-- A stream whose single chunk header declares a 5-byte payload while only
2 bytes remain after it. -/
def truncBytes : List Nat :=
  (CodecHeader.new 1 1 1).toBytes ++ [1, 0, 5, 0, 0, 0] ++ [9, 9]

/-- The decoder freshly constructed on `truncBytes`. -/
def truncDecoder : VideoDecoder := ⟨truncBytes, 128, BitGrid.new 1 1, 0⟩

/-- The decoder state after the truncated-payload `next_frame` call. -/
def truncEnd : VideoDecoder := ⟨truncBytes, 136, BitGrid.new 0 0, 0⟩

/-- The decoder constructed on the empty (zero-frame) encoded stream. -/
def emptyDecoder : VideoDecoder :=
  ⟨(CodecHeader.new 0 0 0).toBytes, 128, BitGrid.new 0 0, 0⟩

/-! ## Arithmetic and list helper lemmas -/

theorem wrap16_eq_self {z : Int} (h1 : -32768 ≤ z) (h2 : z ≤ 32767) : wrap16 z = z := by
  unfold wrap16
  rw [Int.emod_eq_of_lt (by omega) (by omega)]
  omega

theorem int_tmod_coe (a b : Nat) : Int.tmod (a : Int) (b : Int) = ((a % b : Nat) : Int) := rfl

theorem int_tdiv_coe (a b : Nat) : Int.tdiv (a : Int) (b : Int) = ((a / b : Nat) : Int) := rfl

theorem int_tmod_coe8 (a : Nat) : Int.tmod (a : Int) 8 = ((a % 8 : Nat) : Int) := rfl

theorem int_tdiv_coe8 (a : Nat) : Int.tdiv (a : Int) 8 = ((a / 8 : Nat) : Int) := rfl

theorem int_toNat_coe (n : Nat) : ((n : Int)).toNat = n := rfl

theorem getD_append_lt {α : Type} (l1 l2 : List α) (d : α) (i : Nat) (h : i < l1.length) :
    (l1 ++ l2).getD i d = l1.getD i d := by
  rw [List.getD_eq_getElem?_getD, List.getD_eq_getElem?_getD, List.getElem?_append, if_pos h]

theorem getD_append_ge {α : Type} (l1 l2 : List α) (d : α) (i : Nat) (h : l1.length ≤ i) :
    (l1 ++ l2).getD i d = l2.getD (i - l1.length) d := by
  rw [List.getD_eq_getElem?_getD, List.getD_eq_getElem?_getD, List.getElem?_append_right h]

theorem getD_replicate_self {α : Type} (v : α) (n i : Nat) :
    (List.replicate n v).getD i v = v := by
  induction n generalizing i with
  | zero => rfl
  | succ m ih =>
    cases i with
    | zero => rfl
    | succ j => simp only [List.replicate_succ, List.getD_cons_succ]; exact ih j

theorem getD_set_self (l : List Nat) (i v : Nat) (h : i < l.length) :
    (l.set i v).getD i 0 = v := by
  rw [List.getD_eq_getElem?_getD, List.getElem?_set_self (by omega)]
  rfl

theorem getD_set_ne (l : List Nat) (i j v : Nat) (h : i ≠ j) :
    (l.set i v).getD j 0 = l.getD j 0 := by
  rw [List.getD_eq_getElem?_getD, List.getD_eq_getElem?_getD, List.getElem?_set_ne h]

theorem getD_drop {α : Type} (l : List α) (d : α) (c i : Nat) :
    (l.drop c).getD i d = l.getD (c + i) d := by
  rw [List.getD_eq_getElem?_getD, List.getD_eq_getElem?_getD, List.getElem?_drop]

theorem getD_take {α : Type} (l : List α) (d : α) (n i : Nat) (h : i < n) :
    (l.take n).getD i d = l.getD i d := by
  rw [List.getD_eq_getElem?_getD, List.getD_eq_getElem?_getD, List.getElem?_take, if_pos h]

theorem getD_map_range {α : Type} (d : α) (f : Nat → α) {w x : Nat} (hx : x < w) :
    ((List.range w).map f).getD x d = f x := by
  rw [List.getD_eq_getElem?_getD, List.getElem?_map, List.getElem?_range hx]
  rfl

theorem getD_eq_default {α : Type} (l : List α) (d : α) {i : Nat} (h : l.length ≤ i) :
    l.getD i d = d := by
  rw [List.getD_eq_getElem?_getD, List.getElem?_eq_none (by omega)]
  rfl

/-- Effect of the source's byte update `byte & !mask | (elem as u8) << bit`
on a single tested bit. -/
theorem testBit_setByte (b : Nat) (e : Bool) {i j : Nat} (hi : i < 8) (hj : j < 8) :
    Nat.testBit ((b &&& (255 ^^^ (1 <<< i))) ||| ((if e then 1 else 0) <<< i)) j =
      if j = i then e else Nat.testBit b j := by
  have h255 : (255 : Nat) = 2 ^ 8 - 1 := by norm_num
  have h1 : (1 : Nat) <<< i = 2 ^ i := by rw [Nat.shiftLeft_eq, one_mul]
  by_cases hji : j = i
  · subst hji
    rcases e with _ | _
    · simp only [Bool.false_eq_true, if_false, Nat.zero_shiftLeft, Nat.or_zero, h255, h1,
        Nat.testBit_and, Nat.testBit_xor, Nat.testBit_two_pow_sub_one, Nat.testBit_two_pow]
      simp [hj]
    · simp only [if_true, h1, Nat.testBit_or, Nat.testBit_two_pow]
      simp
  · have hij : ¬ i = j := fun hh => hji (Eq.symm hh)
    rcases e with _ | _
    · simp only [Bool.false_eq_true, if_false, Nat.zero_shiftLeft, Nat.or_zero, h255, h1,
        Nat.testBit_and, Nat.testBit_xor, Nat.testBit_two_pow_sub_one, Nat.testBit_two_pow]
      simp [hj, hij, hji]
    · simp only [if_true, h1, Nat.testBit_or, h255, Nat.testBit_and, Nat.testBit_xor,
        Nat.testBit_two_pow_sub_one, Nat.testBit_two_pow]
      simp [hj, hij, hji]

/-! ## In-range coordinate lemmas for `BitGrid` -/

theorem BitGrid.idx_inRange (g : BitGrid) {x y : Nat}
    (hd : DimsSafe g.width g.height) (hx : x < g.width) (hy : y < g.height) :
    g.idx x y = (((x / 8 + y * ((g.width + 7) / 8) : Nat) : Int), x % 8) := by
  obtain ⟨h1, h2, h3⟩ := hd
  have hw16384 : g.width ≤ 16384 := by omega
  have hstride_le : (g.width + 7) / 8 ≤ 2048 := by
    have := Nat.div_le_div_right (c := 8) (Nat.add_le_add_right hw16384 7)
    omega
  have hys : y * ((g.width + 7) / 8) ≤ (g.height - 1) * ((g.width + 7) / 8) :=
    Nat.mul_le_mul_right _ (by omega)
  have hxd : x / 8 ≤ (g.width - 1) / 8 := Nat.div_le_div_right (by omega)
  have hyb : y * ((g.width + 7) / 8) ≤ 32767 := by omega
  have hsum : x / 8 + y * ((g.width + 7) / 8) ≤ 32767 := by omega
  unfold idx
  have e1 : wrap16 ((x : Int) + (g.width : Int)) = ((x + g.width : Nat) : Int) := by
    rw [show ((x : Int) + (g.width : Int)) = ((x + g.width : Nat) : Int) by push_cast; ring]
    exact wrap16_eq_self (by omega) (by omega)
  have e2 : wrap16 ((y : Int) + (g.height : Int)) = ((y + g.height : Nat) : Int) := by
    rw [show ((y : Int) + (g.height : Int)) = ((y + g.height : Nat) : Int) by push_cast; ring]
    exact wrap16_eq_self (by omega) (by omega)
  have e3 : wrap16 ((g.width : Int) + 7) = ((g.width + 7 : Nat) : Int) := by
    rw [show ((g.width : Int) + 7) = ((g.width + 7 : Nat) : Int) by push_cast; ring]
    exact wrap16_eq_self (by omega) (by omega)
  simp only [e1, e2, e3]
  simp only [int_tmod_coe, int_tdiv_coe8]
  simp only [Nat.add_mod_right, Nat.mod_eq_of_lt hx, Nat.mod_eq_of_lt hy]
  simp only [int_tmod_coe8, int_tdiv_coe8]
  rw [show ((y : Nat) : Int) * (((g.width + 7) / 8 : Nat) : Int)
        = ((y * ((g.width + 7) / 8) : Nat) : Int) by push_cast; ring]
  have e4 : wrap16 ((y * ((g.width + 7) / 8) : Nat) : Int)
      = ((y * ((g.width + 7) / 8) : Nat) : Int) :=
    wrap16_eq_self (by omega) (by omega)
  rw [e4]
  rw [show (((x / 8 : Nat) : Int) + ((y * ((g.width + 7) / 8) : Nat) : Int))
        = ((x / 8 + y * ((g.width + 7) / 8) : Nat) : Int) by push_cast; ring]
  have e5 : wrap16 ((x / 8 + y * ((g.width + 7) / 8) : Nat) : Int)
      = ((x / 8 + y * ((g.width + 7) / 8) : Nat) : Int) :=
    wrap16_eq_self (by omega) (by omega)
  rw [e5]
  have hx8 : x % 8 < 8 := Nat.mod_lt _ (by norm_num)
  have e6 : (((x % 8 : Nat) : Int)).emod 256 = ((x % 8 : Nat) : Int) := by
    apply Int.emod_eq_of_lt (by omega) (by omega)
  rw [e6, int_toNat_coe]

theorem BitGrid.get_inRange (g : BitGrid) {x y : Nat}
    (hd : DimsSafe g.width g.height) (hx : x < g.width) (hy : y < g.height) :
    g.get x y = g.getN x y := by
  unfold get getN
  rw [g.idx_inRange hd hx hy]
  have hx8 : x % 8 < 8 := Nat.mod_lt _ (by norm_num)
  simp only [int_toNat_coe, Nat.mod_eq_of_lt hx8]

theorem BitGrid.set_inRange (g : BitGrid) {x y : Nat} (e : Bool)
    (hd : DimsSafe g.width g.height) (hx : x < g.width) (hy : y < g.height) :
    g.set x y e = (g.setN x y e, g.getN x y) := by
  unfold set setN getN
  rw [g.idx_inRange hd hx hy]
  have hx8 : x % 8 < 8 := Nat.mod_lt _ (by norm_num)
  simp only [int_toNat_coe, Nat.mod_eq_of_lt hx8]

/-! ## Content lemmas for `getN`/`setN` -/

theorem stride_eq {w : Nat} (hw : 0 < w) : (w + 7) / 8 = (w - 1) / 8 + 1 := by
  rw [show w + 7 = (w - 1) + 8 by omega, Nat.add_div_right _ (by norm_num)]

theorem flatIdx_lt {w h x y : Nat} (hw : 0 < w) (hx : x < w) (hy : y < h) :
    x / 8 + y * ((w + 7) / 8) < ((w + 7) / 8) * h := by
  have hs8 := stride_eq hw
  have h1 : x / 8 ≤ (w - 1) / 8 := Nat.div_le_div_right (by omega)
  have h2 : y * ((w + 7) / 8) ≤ (h - 1) * ((w + 7) / 8) :=
    Nat.mul_le_mul_right _ (by omega)
  have h3 : ((w + 7) / 8) * h = (h - 1) * ((w + 7) / 8) + ((w + 7) / 8) := by
    cases h with
    | zero => omega
    | succ m => rw [mul_comm, Nat.succ_mul]; simp
  omega

theorem flatIdx_inj {w x y x2 y2 : Nat} (hw : 0 < w) (hx : x < w) (hx2 : x2 < w)
    (hij : x / 8 + y * ((w + 7) / 8) = x2 / 8 + y2 * ((w + 7) / 8))
    (hbit : x % 8 = x2 % 8) : x = x2 ∧ y = y2 := by
  have hs8 := stride_eq hw
  have hxlt : x / 8 < (w + 7) / 8 := by
    have := Nat.div_le_div_right (c := 8) (show x ≤ w - 1 by omega); omega
  have hxlt2 : x2 / 8 < (w + 7) / 8 := by
    have := Nat.div_le_div_right (c := 8) (show x2 ≤ w - 1 by omega); omega
  have hs : 0 < (w + 7) / 8 := by omega
  have hyy : y = y2 := by
    have d1 : (x / 8 + y * ((w + 7) / 8)) / ((w + 7) / 8) = y := by
      rw [Nat.add_mul_div_right _ _ hs, Nat.div_eq_of_lt hxlt, Nat.zero_add]
    have d2 : (x2 / 8 + y2 * ((w + 7) / 8)) / ((w + 7) / 8) = y2 := by
      rw [Nat.add_mul_div_right _ _ hs, Nat.div_eq_of_lt hxlt2, Nat.zero_add]
    rw [← d1, ← d2, hij]
  subst hyy
  exact ⟨by omega, rfl⟩

theorem BitGrid.setN_width (g : BitGrid) (x y : Nat) (e : Bool) :
    (g.setN x y e).width = g.width := rfl

theorem BitGrid.setN_height (g : BitGrid) (x y : Nat) (e : Bool) :
    (g.setN x y e).height = g.height := rfl

theorem BitGrid.setN_buf_length (g : BitGrid) (x y : Nat) (e : Bool) :
    (g.setN x y e).buf.length = g.buf.length := by
  unfold setN
  simp [List.length_set]

/-- Any grid whose buffer reads as all zeroes has every bit unset. -/
theorem BitGrid.getN_zero_buf {g : BitGrid} (hz : ∀ i, g.buf.getD i 0 = 0) (x y : Nat) :
    g.getN x y = false := by
  unfold getN
  rw [hz]
  simp

theorem BitGrid.getN_setN (g : BitGrid) {x y x2 y2 : Nat} (e : Bool)
    (hw : 0 < g.width) (hL : ((g.width + 7) / 8) * g.height ≤ g.buf.length)
    (hx : x < g.width) (hy : y < g.height) (hx2 : x2 < g.width) (hy2 : y2 < g.height) :
    (g.setN x y e).getN x2 y2 = if x2 = x ∧ y2 = y then e else g.getN x2 y2 := by
  have hb1 : x % 8 < 8 := Nat.mod_lt _ (by norm_num)
  have hb2 : x2 % 8 < 8 := Nat.mod_lt _ (by norm_num)
  have hilt : x / 8 + y * ((g.width + 7) / 8) < g.buf.length :=
    lt_of_lt_of_le (flatIdx_lt hw hx hy) hL
  unfold setN getN
  by_cases hii : x2 / 8 + y2 * ((g.width + 7) / 8) = x / 8 + y * ((g.width + 7) / 8)
  · rw [hii, getD_set_self _ _ _ hilt, testBit_setByte _ _ hb1 hb2]
    by_cases hbit : x2 % 8 = x % 8
    · have := flatIdx_inj hw hx2 hx hii hbit
      rw [if_pos hbit, if_pos ⟨this.1, this.2⟩]
    · have hne : ¬ (x2 = x ∧ y2 = y) := by
        rintro ⟨he1, he2⟩; subst he1; exact hbit rfl
      rw [if_neg hbit, if_neg hne]
  · rw [getD_set_ne _ _ _ _ (fun hh => hii (Eq.symm hh))]
    have hne : ¬ (x2 = x ∧ y2 = y) := by
      rintro ⟨he1, he2⟩; subst he1; subst he2; exact hii rfl
    rw [if_neg hne]

/-! ## Row-major scan access -/

theorem rowsUpTo_succ (g : BitGrid) (m : Nat) :
    rowsUpTo g (m + 1) = rowsUpTo g m ++ (List.range g.width).map (fun x : Nat => g.get x m) := by
  unfold rowsUpTo
  rw [List.range_succ, List.flatMap_append]
  simp

theorem length_rowsUpTo (g : BitGrid) (m : Nat) :
    (rowsUpTo g m).length = m * g.width := by
  induction m with
  | zero => simp [rowsUpTo]
  | succ k ih =>
    rw [rowsUpTo_succ]
    simp [ih, Nat.succ_mul]

theorem getD_rowsUpTo (g : BitGrid) {x y m : Nat} (hx : x < g.width) (hy : y < m) :
    (rowsUpTo g m).getD (y * g.width + x) false = g.get x y := by
  induction m with
  | zero => omega
  | succ k ih =>
    rw [rowsUpTo_succ]
    by_cases hyk : y < k
    · rw [getD_append_lt _ _ _ _ (by rw [length_rowsUpTo]; calc
        y * g.width + x < y * g.width + g.width := by omega
        _ = (y + 1) * g.width := by rw [Nat.succ_mul]
        _ ≤ k * g.width := Nat.mul_le_mul_right _ (by omega))]
      exact ih hyk
    · have hyeq : y = k := by omega
      subst hyeq
      rw [getD_append_ge _ _ _ _ (by rw [length_rowsUpTo]; omega),
        length_rowsUpTo, show y * g.width + x - y * g.width = x by omega,
        getD_map_range _ _ hx]

theorem scanOrder_eq_rowsUpTo (g : BitGrid) : g.scanOrder = rowsUpTo g g.height := rfl

theorem length_scanOrder (g : BitGrid) : g.scanOrder.length = g.height * g.width :=
  length_rowsUpTo g g.height

theorem getD_scanOrder (g : BitGrid) {x y : Nat} (hx : x < g.width) (hy : y < g.height) :
    g.scanOrder.getD (y * g.width + x) false = g.get x y :=
  getD_rowsUpTo g hx hy

/-! ## Run-length theory at the list level -/

theorem bump_ne_nil (ns : List Nat) : bump ns ≠ [] := by
  cases ns <;> simp [bump]

theorem mergeEmit_bump (cnt : Nat) (hc : cnt < 256) (ns : List Nat) :
    mergeEmit cnt (bump ns) = mergeEmit ((cnt + 1) % 256) ns := by
  cases ns with
  | nil => simp [bump, mergeEmit]
  | cons n r =>
    cases r with
    | nil =>
      have harith : ((cnt + 1) % 256 + n) % 256 = (cnt + (n + 1)) % 256 := by
        rw [Nat.mod_add_mod]; congr 1; omega
      simp [bump, mergeEmit, harith]
    | cons m ms =>
      have harith : ((cnt + 1) % 256 + n) % 256 = (cnt + (n + 1)) % 256 := by
        rw [Nat.mod_add_mod]; congr 1; omega
      simp [bump, mergeEmit, harith]

/-- The run-length loop body, folded over any pixel sequence, emits exactly
`mergeEmit` of the maximal-run decomposition (with the final flush). -/
theorem rleFold : ∀ (l : List Bool) (c : Bool) (cnt : Nat) (out : List Nat), cnt < 256 →
    (l.foldl rleStep (c, cnt, out)).2.2 ++
        (if (l.foldl rleStep (c, cnt, out)).2.1 > 0
         then [(l.foldl rleStep (c, cnt, out)).2.1] else []) =
      out ++ mergeEmit cnt (runsFromC c l) := by
  intro l
  induction l with
  | nil =>
    intro c cnt out hc
    simp [runsFromC, mergeEmit]
  | cons b t ih =>
    intro c cnt out hc
    by_cases hbc : b = c
    · subst hbc
      have hstep : rleStep (b, cnt, out) b = (b, (cnt + 1) % 256, out) := by
        simp [rleStep]
      rw [List.foldl_cons, hstep, ih b ((cnt + 1) % 256) out (Nat.mod_lt _ (by norm_num))]
      have hruns : runsFromC b (b :: t) = bump (runsFromC b t) := by
        simp [runsFromC]
      rw [hruns, mergeEmit_bump cnt hc]
    · have hstep : rleStep (c, cnt, out) b = (b, 1, out ++ [cnt]) := by
        simp [rleStep, hbc]
      rw [List.foldl_cons, hstep, ih b 1 (out ++ [cnt]) (by norm_num)]
      have hbc2 : (!c) = b := by cases b <;> cases c <;> simp_all
      have hruns : runsFromC c (b :: t) = 0 :: bump (runsFromC b t) := by
        simp [runsFromC, hbc, hbc2]
      rw [hruns]
      obtain ⟨m, ms, hms⟩ : ∃ m ms, bump (runsFromC b t) = m :: ms := by
        cases hb : bump (runsFromC b t) with
        | nil => exact absurd hb (bump_ne_nil _)
        | cons m ms => exact ⟨m, ms, rfl⟩
      rw [hms]
      have hme : mergeEmit cnt (0 :: m :: ms) = cnt % 256 :: mergeEmit 0 (m :: ms) := by
        simp [mergeEmit]
      rw [hme, Nat.mod_eq_of_lt hc, ← hms, mergeEmit_bump 0 (by norm_num)]
      simp

/-- The encoder's run-length payload is `mergeEmit` of the maximal runs. -/
theorem rlePayload_eq (g : BitGrid) :
    rlePayload g = mergeEmit 0 (runsSpec g.scanOrder) := by
  have h := rleFold g.scanOrder false 0 [] (by norm_num)
  simpa [rlePayload, runsSpec] using h

theorem mergeEmit_zero_eq_wrapRuns (ns : List Nat) : mergeEmit 0 ns = wrapRuns ns := by
  induction ns with
  | nil => simp [mergeEmit, wrapRuns]
  | cons n rest ih =>
    cases rest with
    | nil =>
      by_cases hz : n % 256 = 0 <;> simp [mergeEmit, wrapRuns, hz]
    | cons m ms =>
      have h1 : mergeEmit 0 (n :: m :: ms) = (0 + n) % 256 :: mergeEmit 0 (m :: ms) := by
        simp [mergeEmit]
      rw [h1, ih]
      unfold wrapRuns
      simp only [List.map_cons, List.getLast?_cons_cons, Nat.zero_add]
      by_cases hz : (m % 256 :: ms.map fun n => n % 256).getLast? = some 0
      · rw [if_pos hz, if_pos hz]
        rfl
      · rw [if_neg hz, if_neg hz]

/-- When no run wraps and the final run is positive, `mergeEmit 0` is the
identity: the payload lists the run lengths exactly. -/
theorem mergeEmit_zero_of_bounded (ns : List Nat) (hb : ∀ n ∈ ns, n ≤ 255)
    (hl : ∀ m, ns.getLast? = some m → 0 < m) : mergeEmit 0 ns = ns := by
  induction ns with
  | nil => rfl
  | cons n rest ih =>
    cases rest with
    | nil =>
      have h1 : n ≤ 255 := hb n (by simp)
      have h2 : 0 < n := hl n (by simp)
      simp [mergeEmit, Nat.mod_eq_of_lt (show n < 256 by omega), h2]
    | cons m ms =>
      have h1 : n ≤ 255 := hb n (by simp)
      have h2 : mergeEmit 0 (n :: m :: ms) = (0 + n) % 256 :: mergeEmit 0 (m :: ms) := by
        simp [mergeEmit]
      rw [h2, ih (fun k hk => hb k (by simp [hk]))
        (fun k hk => hl k (by rw [List.getLast?_cons_cons]; exact hk))]
      simp [Nat.mod_eq_of_lt (show n < 256 by omega)]

theorem bump_getLast_pos (ns : List Nat) (h : ∀ m, ns.getLast? = some m → 0 < m) :
    ∀ m, (bump ns).getLast? = some m → 0 < m := by
  cases ns with
  | nil => intro m hm; simp [bump] at hm; omega
  | cons n r =>
    cases r with
    | nil => intro m hm; simp [bump] at hm; omega
    | cons p q =>
      intro m hm
      rw [show bump (n :: p :: q) = (n + 1) :: p :: q from rfl,
        List.getLast?_cons_cons] at hm
      exact h m (by rw [List.getLast?_cons_cons]; exact hm)

/-- Every maximal-run list ends in a positive entry. -/
theorem runsFromC_getLast_pos (l : List Bool) : ∀ (c : Bool) (m : Nat),
    (runsFromC c l).getLast? = some m → 0 < m := by
  induction l with
  | nil => intro c m hm; simp [runsFromC] at hm
  | cons b t ih =>
    intro c m hm
    by_cases hbc : b = c
    · rw [show runsFromC c (b :: t) = bump (runsFromC c t) by simp [runsFromC, hbc]] at hm
      exact bump_getLast_pos _ (ih c) m hm
    · have hbc2 : (!c) = b := by cases b <;> cases c <;> simp_all
      rw [show runsFromC c (b :: t) = 0 :: bump (runsFromC b t) by
        simp [runsFromC, hbc, hbc2]] at hm
      obtain ⟨p, ps, hps⟩ : ∃ p ps, bump (runsFromC b t) = p :: ps := by
        cases hb : bump (runsFromC b t) with
        | nil => exact absurd hb (bump_ne_nil _)
        | cons p ps => exact ⟨p, ps, rfl⟩
      rw [hps, List.getLast?_cons_cons] at hm
      exact bump_getLast_pos _ (ih b) m (by rw [hps]; exact hm)

/-- Under the run bound, the payload is exactly the run lengths. -/
theorem rlePayload_of_bounded (g : BitGrid) (hb : RunsBounded g.scanOrder) :
    rlePayload g = runsSpec g.scanOrder := by
  rw [rlePayload_eq]
  exact mergeEmit_zero_of_bounded _ hb (fun m hm => runsFromC_getLast_pos _ false m hm)

theorem takeWhile_eq_replicate (c : Bool) (l : List Bool) :
    l.takeWhile (· == c) = List.replicate (l.takeWhile (· == c)).length c := by
  have hmem : ∀ b ∈ l.takeWhile (· == c), b = c := by
    intro b hb
    have := List.mem_takeWhile_imp hb
    simpa using this
  exact List.eq_replicate_of_mem hmem

theorem dropWhile_head_false (p : Bool → Bool) :
    ∀ (l : List Bool) (b : Bool) (t : List Bool), l.dropWhile p = b :: t → p b = false := by
  intro l
  induction l with
  | nil => intro b t h; simp [List.dropWhile] at h
  | cons a l2 ih =>
    intro b t h
    rw [List.dropWhile_cons] at h
    by_cases hp : p a
    · rw [if_pos hp] at h; exact ih b t h
    · rw [if_neg hp] at h
      obtain ⟨hb, _⟩ := List.cons.injEq .. ▸ h
      cases h
      simpa using hp

/-- Peeling one maximal run from the decomposition. -/
theorem runsFromC_peel (c : Bool) (l : List Bool) (hl : l ≠ []) :
    runsFromC c l =
      (l.takeWhile (· == c)).length ::
        (if l.dropWhile (· == c) = [] then []
         else runsFromC (!c) (l.dropWhile (· == c))) := by
  induction l with
  | nil => exact absurd rfl hl
  | cons b t ih =>
    by_cases hbc : b = c
    · subst hbc
      rw [show runsFromC b (b :: t) = bump (runsFromC b t) by simp [runsFromC]]
      rw [List.takeWhile_cons, List.dropWhile_cons]
      simp only [beq_self_eq_true, if_true, List.length_cons]
      by_cases ht : t = []
      · subst ht
        simp [runsFromC, bump]
      · rw [ih ht]
        simp [bump]
    · have hbc2 : (!c) = b := by cases b <;> cases c <;> simp_all
      rw [show runsFromC c (b :: t) = 0 :: bump (runsFromC b t) by
        simp [runsFromC, hbc, hbc2]]
      have hbeq : (b == c) = false := by simp [hbc]
      simp only [List.takeWhile_cons, List.dropWhile_cons, hbeq, Bool.false_eq_true,
        if_false, List.length_nil]
      rw [if_neg (by simp)]
      rw [show runsFromC (!c) (b :: t) = bump (runsFromC (!c) t) by
        rw [hbc2]; simp [runsFromC]]
      rw [hbc2]

/-- Decoding the run decomposition as (unset, set) pairs reconstructs the
pixel sequence exactly. -/
theorem pairsToBools_runsSpec_aux : ∀ (fuel : Nat) (l : List Bool), l.length ≤ fuel →
    pairsToBools (rlePairs (runsSpec l)) = l := by
  intro fuel
  induction fuel with
  | zero =>
    intro l hl
    have : l = [] := List.length_eq_zero.mp (by omega)
    subst this; rfl
  | succ f ih =>
    intro l hl
    by_cases hnil : l = []
    · subst hnil; rfl
    set n0 := (l.takeWhile (· == false)).length with hn0
    set l2 := l.dropWhile (· == false) with hl2
    have hsplit : l.takeWhile (· == false) ++ l2 = l := List.takeWhile_append_dropWhile _ _
    have htw : l.takeWhile (· == false) = List.replicate n0 false := takeWhile_eq_replicate false l
    rw [show runsSpec l = runsFromC false l from rfl, runsFromC_peel false l hnil]
    by_cases h2 : l2 = []
    · rw [if_pos (hl2 ▸ h2)]
      rw [show rlePairs [n0] = [(n0, 0)] from rfl]
      rw [show pairsToBools [(n0, 0)] = List.replicate n0 false ++ List.replicate 0 true ++ [] from rfl]
      simp only [List.replicate_zero, List.append_nil]
      rw [← htw]
      conv_rhs => rw [← hsplit]
      rw [h2, List.append_nil]
    · rw [if_neg (by rw [← hl2]; exact h2)]
      obtain ⟨b2, t2, hbt⟩ : ∃ b2 t2, l2 = b2 :: t2 := by
        cases hc : l2 with
        | nil => exact absurd hc h2
        | cons b2 t2 => exact ⟨b2, t2, rfl⟩
      have hb2 : b2 = true := by
        have := dropWhile_head_false (· == false) l b2 t2 (by rw [← hl2, hbt])
        simpa using this
      set n1 := (l2.takeWhile (· == true)).length with hn1
      set l3 := l2.dropWhile (· == true) with hl3
      have hsplit2 : l2.takeWhile (· == true) ++ l3 = l2 := List.takeWhile_append_dropWhile _ _
      have htw2 : l2.takeWhile (· == true) = List.replicate n1 true := takeWhile_eq_replicate true l2
      have hn1pos : 0 < n1 := by
        rw [hn1, hbt, List.takeWhile_cons, hb2]
        simp
      rw [show (!false) = true from rfl, runsFromC_peel true l2 h2]
      by_cases h3 : l3 = []
      · rw [if_pos (hl3 ▸ h3)]
        rw [show rlePairs [n0, n1] = [(n0, n1)] from rfl]
        rw [show pairsToBools [(n0, n1)] = List.replicate n0 false ++ List.replicate n1 true ++ [] from rfl]
        rw [List.append_nil, ← htw, ← htw2]
        conv_rhs => rw [← hsplit, ← hsplit2]
        rw [h3, List.append_nil]
      · rw [if_neg (by rw [← hl3]; exact h3)]
        rw [show (!true) = false from rfl]
        have hlen3 : l3.length ≤ f := by
          have e1 : l.length = n0 + l2.length := by
            conv_lhs => rw [← hsplit]
            rw [List.length_append, htw, List.length_replicate]
          have e2 : l2.length = n1 + l3.length := by
            conv_lhs => rw [← hsplit2]
            rw [List.length_append, htw2, List.length_replicate]
          omega
        rw [show rlePairs (n0 :: n1 :: runsFromC false l3) = (n0, n1) :: rlePairs (runsFromC false l3) from rfl]
        rw [show pairsToBools ((n0, n1) :: rlePairs (runsFromC false l3))
              = List.replicate n0 false ++ List.replicate n1 true ++ pairsToBools (rlePairs (runsFromC false l3)) from rfl]
        rw [show runsFromC false l3 = runsSpec l3 from rfl, ih l3 hlen3]
        rw [← htw, ← htw2]
        conv_rhs => rw [← hsplit, ← hsplit2]
        rw [List.append_assoc]

theorem pairsToBools_runsSpec (l : List Bool) :
    pairsToBools (rlePairs (runsSpec l)) = l :=
  pairsToBools_runsSpec_aux l.length l (le_refl _)

/-! ## Grid-level run-length expansion -/

theorem pos_div_mod {w x y : Nat} (hw : 0 < w) (hx : x < w) :
    (y * w + x) % w = x ∧ (y * w + x) / w = y := by
  constructor
  · rw [Nat.add_comm, Nat.add_mul_mod_self_right, Nat.mod_eq_of_lt hx]
  · rw [Nat.add_comm, Nat.add_mul_div_right _ _ hw, Nat.div_eq_of_lt hx, Nat.zero_add]

theorem pos_inj {w x x2 y y2 : Nat} (hx : x < w) (hx2 : x2 < w) :
    y2 * w + x2 = y * w + x ↔ (x2 = x ∧ y2 = y) := by
  have hw : 0 < w := by omega
  constructor
  · intro hq
    have e1 := (pos_div_mod (y := y2) hw hx2).2
    have e2 := (pos_div_mod (y := y) hw hx).2
    have hyy : y2 = y := by rw [← e1, ← e2, hq]
    subst hyy
    exact ⟨by omega, rfl⟩
  · rintro ⟨h1, h2⟩; subst h1; subst h2; rfl

theorem row_lt_of_pos_lt {w h x y : Nat} (hx : x < w) (hpos : y * w + x < w * h) : y < h := by
  by_contra hc
  have h1 : h ≤ y := by omega
  have h2 : h * w ≤ y * w := Nat.mul_le_mul_right _ h1
  rw [Nat.mul_comm w h] at hpos
  omega

theorem skipCells_eq (w : Nat) (hw : 0 < w) :
    ∀ (n x y : Nat), x < w →
      skipCells w n (x, y) = ((y * w + x + n) % w, (y * w + x + n) / w) := by
  intro n
  induction n with
  | zero =>
    intro x y hx
    show (x, y) = ((y * w + x + 0) % w, (y * w + x + 0) / w)
    simp only [Nat.add_zero]
    rw [(pos_div_mod hw hx).1, (pos_div_mod hw hx).2]
  | succ n ihn =>
    intro x y hx
    show (if w ≤ x + 1 then skipCells w n (0, y + 1) else skipCells w n (x + 1, y)) = _
    by_cases hxe : w ≤ x + 1
    · rw [if_pos hxe, ihn 0 (y + 1) hw]
      have harg : (y + 1) * w + 0 + n = y * w + x + (n + 1) := by
        rw [Nat.succ_mul]; omega
      rw [harg]
    · rw [if_neg hxe, ihn (x + 1) y (by omega)]
      have harg : y * w + (x + 1) + n = y * w + x + (n + 1) := by omega
      rw [harg]

theorem writeCells_spec {w h : Nat} (hd : DimsSafe w h) (hw : 0 < w) :
    ∀ (n : Nat) (g : BitGrid) (x y : Nat),
      g.width = w → g.height = h → g.buf.length = ((w + 7) / 8) * h →
      x < w → y * w + x + n ≤ w * h →
      (writeCells n (g, x, y)).1.width = w ∧
      (writeCells n (g, x, y)).1.height = h ∧
      (writeCells n (g, x, y)).1.buf.length = ((w + 7) / 8) * h ∧
      (writeCells n (g, x, y)).2 = ((y * w + x + n) % w, (y * w + x + n) / w) ∧
      (∀ x2, x2 < w → ∀ y2, y2 < h →
        (writeCells n (g, x, y)).1.getN x2 y2 =
          if y * w + x ≤ y2 * w + x2 ∧ y2 * w + x2 < y * w + x + n then true
          else g.getN x2 y2) := by
  intro n
  induction n with
  | zero =>
    intro g x y hgw hgh hgl hx hbound
    refine ⟨hgw, hgh, hgl, ?_, ?_⟩
    · show (x, y) = ((y * w + x + 0) % w, (y * w + x + 0) / w)
      simp only [Nat.add_zero]
      rw [(pos_div_mod hw hx).1, (pos_div_mod hw hx).2]
    · intro x2 hx2 y2 hy2
      rw [if_neg (by omega)]
      rfl
  | succ n ihn =>
    intro g x y hgw hgh hgl hx hbound
    have hy : y < h := row_lt_of_pos_lt hx (by omega)
    have hdg : DimsSafe g.width g.height := by rw [hgw, hgh]; exact hd
    have hset := @BitGrid.set_inRange g x y true hdg (by omega) (by omega)
    set g1 := g.setN x y true with hg1
    have hg1w : g1.width = g.width := rfl
    have hg1h : g1.height = g.height := rfl
    have hg1l : g1.buf.length = g.buf.length := BitGrid.setN_buf_length g x y true
    have hstep : writeCells (n + 1) (g, x, y) =
        (if g1.width ≤ x + 1 then writeCells n (g1, 0, y + 1)
         else writeCells n (g1, x + 1, y)) := by
      show (if ((g.set x y true).1).width ≤ x + 1
              then writeCells n ((g.set x y true).1, 0, y + 1)
              else writeCells n ((g.set x y true).1, x + 1, y)) = _
      rw [hset]
    have hgetN : ∀ x2, x2 < w → ∀ y2, y2 < h →
        g1.getN x2 y2 = if x2 = x ∧ y2 = y then true else g.getN x2 y2 := by
      intro x2 hx2 y2 hy2
      rw [hg1]
      exact g.getN_setN true (by omega) (le_of_eq (by rw [hgw, hgh, hgl])) (by omega)
        (by omega) (by omega) (by omega)
    by_cases hxe : w ≤ x + 1
    · have hif : (if g1.width ≤ x + 1 then writeCells n (g1, 0, y + 1)
          else writeCells n (g1, x + 1, y)) = writeCells n (g1, 0, y + 1) := by
        rw [if_pos (by rw [hg1w, hgw]; exact hxe)]
      rw [hstep, hif]
      have hx1 : x + 1 = w := by omega
      have hposeq : (y + 1) * w + 0 = y * w + x + 1 := by rw [Nat.succ_mul]; omega
      obtain ⟨c1, c2, c3, c4, c5⟩ := ihn g1 0 (y + 1) (hg1w.trans hgw) (hg1h.trans hgh)
        (hg1l.trans hgl) hw (by omega)
      refine ⟨c1, c2, c3, ?_, ?_⟩
      · rw [c4]
        have harg : (y + 1) * w + 0 + n = y * w + x + (n + 1) := by omega
        rw [harg]
      · intro x2 hx2 y2 hy2
        rw [c5 x2 hx2 y2 hy2, hgetN x2 hx2 y2 hy2]
        by_cases hin : (y + 1) * w + 0 ≤ y2 * w + x2 ∧ y2 * w + x2 < (y + 1) * w + 0 + n
        · rw [if_pos hin, if_pos (by omega)]
        · rw [if_neg hin]
          by_cases heq : x2 = x ∧ y2 = y
          · have : y2 * w + x2 = y * w + x := (pos_inj hx hx2).mpr heq
            rw [if_pos heq, if_pos (by omega)]
          · have : ¬ y2 * w + x2 = y * w + x := fun hc => heq ((pos_inj hx hx2).mp hc)
            rw [if_neg heq, if_neg (by omega)]
    · have hif : (if g1.width ≤ x + 1 then writeCells n (g1, 0, y + 1)
          else writeCells n (g1, x + 1, y)) = writeCells n (g1, x + 1, y) := by
        rw [if_neg (by rw [hg1w, hgw]; exact hxe)]
      rw [hstep, hif]
      obtain ⟨c1, c2, c3, c4, c5⟩ := ihn g1 (x + 1) y (hg1w.trans hgw) (hg1h.trans hgh)
        (hg1l.trans hgl) (by omega) (by omega)
      refine ⟨c1, c2, c3, ?_, ?_⟩
      · rw [c4]
        have harg : y * w + (x + 1) + n = y * w + x + (n + 1) := by omega
        rw [harg]
      · intro x2 hx2 y2 hy2
        rw [c5 x2 hx2 y2 hy2, hgetN x2 hx2 y2 hy2]
        by_cases hin : y * w + (x + 1) ≤ y2 * w + x2 ∧ y2 * w + x2 < y * w + (x + 1) + n
        · rw [if_pos hin, if_pos (by omega)]
        · rw [if_neg hin]
          by_cases heq : x2 = x ∧ y2 = y
          · have : y2 * w + x2 = y * w + x := (pos_inj hx hx2).mpr heq
            rw [if_pos heq, if_pos (by omega)]
          · have : ¬ y2 * w + x2 = y * w + x := fun hc => heq ((pos_inj hx hx2).mp hc)
            rw [if_neg heq, if_neg (by omega)]

theorem expandPairs_spec {w h : Nat} (hd : DimsSafe w h) (hw : 0 < w) :
    ∀ (ps : List (Nat × Nat)) (g : BitGrid) (x y : Nat),
      g.width = w → g.height = h → g.buf.length = ((w + 7) / 8) * h →
      x < w → y * w + x + (pairsToBools ps).length ≤ w * h →
      (∀ x2, x2 < w → ∀ y2, y2 < h → y * w + x ≤ y2 * w + x2 → g.getN x2 y2 = false) →
      (ps.foldl expandStep (g, x, y)).1.width = w ∧
      (ps.foldl expandStep (g, x, y)).1.height = h ∧
      (ps.foldl expandStep (g, x, y)).1.buf.length = ((w + 7) / 8) * h ∧
      (∀ x2, x2 < w → ∀ y2, y2 < h →
        (ps.foldl expandStep (g, x, y)).1.getN x2 y2 =
          if y * w + x ≤ y2 * w + x2 then
            (pairsToBools ps).getD (y2 * w + x2 - (y * w + x)) false
          else g.getN x2 y2) := by
  intro ps
  induction ps with
  | nil =>
    intro g x y hgw hgh hgl hx hbound hzero
    refine ⟨hgw, hgh, hgl, ?_⟩
    intro x2 hx2 y2 hy2
    show g.getN x2 y2 = _
    by_cases hle : y * w + x ≤ y2 * w + x2
    · rw [if_pos hle, hzero x2 hx2 y2 hy2 hle]
      rfl
    · rw [if_neg hle]
  | cons pr rest ih =>
    intro g x y hgw hgh hgl hx hbound hzero
    obtain ⟨nb, nw⟩ := pr
    have hlen : (pairsToBools ((nb, nw) :: rest)).length
        = nb + nw + (pairsToBools rest).length := by
      simp only [pairsToBools, List.length_append, List.length_replicate]
    rw [List.foldl_cons]
    have hskip : skipCells g.width nb (x, y) = ((y * w + x + nb) % w, (y * w + x + nb) / w) := by
      rw [hgw]; exact skipCells_eq w hw nb x y hx
    have hstep : expandStep (g, x, y) (nb, nw) =
        writeCells nw (g, (y * w + x + nb) % w, (y * w + x + nb) / w) := by
      unfold expandStep
      rw [hskip]
    rw [hstep]
    set x1 := (y * w + x + nb) % w with hx1
    set y1 := (y * w + x + nb) / w with hy1
    have hx1lt : x1 < w := Nat.mod_lt _ hw
    have hpos1 : y1 * w + x1 = y * w + x + nb := by
      rw [hx1, hy1, Nat.mul_comm, Nat.div_add_mod]
    obtain ⟨w1, w2, w3, w4, w5⟩ := writeCells_spec hd hw nw g x1 y1 hgw hgh hgl hx1lt
      (by omega)
    set g2 := (writeCells nw (g, x1, y1)).1 with hg2
    have hx2m : (y1 * w + x1 + nw) % w < w := Nat.mod_lt _ hw
    have hpos2 : ((y1 * w + x1 + nw) / w) * w + (y1 * w + x1 + nw) % w
        = y * w + x + nb + nw := by
      rw [Nat.mul_comm, Nat.div_add_mod]
      omega
    have hzero2 : ∀ x2, x2 < w → ∀ y2, y2 < h →
        y * w + x + nb + nw ≤ y2 * w + x2 → g2.getN x2 y2 = false := by
      intro x2 hx2 y2 hy2 hge
      rw [w5 x2 hx2 y2 hy2, if_neg (by omega)]
      exact hzero x2 hx2 y2 hy2 (by omega)
    obtain ⟨d1, d2, d3, d4⟩ := ih g2 ((y1 * w + x1 + nw) % w) ((y1 * w + x1 + nw) / w)
      w1 w2 w3 hx2m (by omega) (by
        intro x2 hx2 y2 hy2 hge
        exact hzero2 x2 hx2 y2 hy2 (by omega))
    have hfold2 : writeCells nw (g, x1, y1)
        = (g2, (y1 * w + x1 + nw) % w, (y1 * w + x1 + nw) / w) := by
      rw [Prod.ext_iff]
      exact ⟨hg2.symm, w4⟩
    rw [hfold2]
    refine ⟨d1, d2, d3, ?_⟩
    intro x2 hx2 y2 hy2
    rw [d4 x2 hx2 y2 hy2]
    set q := y2 * w + x2 with hq
    by_cases hc1 : y * w + x + nb + nw ≤ q
    · rw [if_pos (by omega), if_pos (by omega)]
      have e1 : (pairsToBools ((nb, nw) :: rest)).getD (q - (y * w + x)) false
          = (pairsToBools rest).getD (q - (y * w + x) - nb - nw) false := by
        show (List.replicate nb false ++ List.replicate nw true ++ pairsToBools rest).getD _ false = _
        rw [List.append_assoc, getD_append_ge _ _ _ _ (by simp; omega),
          getD_append_ge _ _ _ _ (by simp; omega)]
        simp only [List.length_replicate]
      rw [e1]
      congr 1
      omega
    · rw [if_neg (by omega)]
      rw [w5 x2 hx2 y2 hy2]
      by_cases hc2 : y * w + x + nb ≤ q
      · have hin : y1 * w + x1 ≤ q ∧ q < y1 * w + x1 + nw := by omega
        rw [if_pos hin, if_pos (by omega)]
        have e1 : (pairsToBools ((nb, nw) :: rest)).getD (q - (y * w + x)) false = true := by
          show (List.replicate nb false ++ List.replicate nw true ++ pairsToBools rest).getD _ false = _
          rw [List.append_assoc, getD_append_ge _ _ _ _ (by simp; omega)]
          rw [getD_append_lt _ _ _ _ (by simp; omega)]
          simp only [List.length_replicate]
          have : q - (y * w + x) - nb < nw := by omega
          rw [List.getD_eq_getElem?_getD, List.getElem?_replicate, if_pos this]
          rfl
        rw [e1]
      · rw [if_neg (by omega)]
        by_cases hc3 : y * w + x ≤ q
        · rw [if_pos hc3, hzero x2 hx2 y2 hy2 (by omega)]
          have e1 : (pairsToBools ((nb, nw) :: rest)).getD (q - (y * w + x)) false = false := by
            show (List.replicate nb false ++ List.replicate nw true ++ pairsToBools rest).getD _ false = _
            rw [List.append_assoc, getD_append_lt _ _ _ _ (by simp; omega)]
            rw [List.getD_eq_getElem?_getD, List.getElem?_replicate, if_pos (by omega)]
            rfl
          rw [e1]
        · rw [if_neg hc3]

/-- Expanding a run-length payload into a cleared grid reproduces, bit for
bit, the boolean sequence the payload denotes. -/
theorem expand_runlength_spec {w h : Nat} (hd : DimsSafe w h) (hw : 0 < w)
    (payload : List Nat)
    (hlen : (pairsToBools (rlePairs payload)).length ≤ w * h) :
    (expand_runlength ⟨List.replicate (((w + 7) / 8) * h) 0, w, h⟩ payload).width = w ∧
    (expand_runlength ⟨List.replicate (((w + 7) / 8) * h) 0, w, h⟩ payload).height = h ∧
    (expand_runlength ⟨List.replicate (((w + 7) / 8) * h) 0, w, h⟩ payload).buf.length
      = ((w + 7) / 8) * h ∧
    (∀ x2, x2 < w → ∀ y2, y2 < h →
      (expand_runlength ⟨List.replicate (((w + 7) / 8) * h) 0, w, h⟩ payload).getN x2 y2
        = (pairsToBools (rlePairs payload)).getD (y2 * w + x2) false) := by
  have hzero : ∀ x2, x2 < w → ∀ y2, y2 < h → 0 * w + 0 ≤ y2 * w + x2 →
      (BitGrid.mk (List.replicate (((w + 7) / 8) * h) 0) w h).getN x2 y2 = false := by
    intro x2 _ y2 _ _
    exact BitGrid.getN_zero_buf (fun i => getD_replicate_self 0 _ i) x2 y2
  obtain ⟨c1, c2, c3, c4⟩ := expandPairs_spec hd hw (rlePairs payload)
    ⟨List.replicate (((w + 7) / 8) * h) 0, w, h⟩ 0 0 rfl rfl (by simp) hw
    (by simpa using hlen) hzero
  refine ⟨c1, c2, c3, ?_⟩
  intro x2 hx2 y2 hy2
  have := c4 x2 hx2 y2 hy2
  rw [if_pos (by omega)] at this
  simpa using this

/-! ## Container byte-layout lemmas -/

theorem BitGrid.eq_of_fields {g1 g2 : BitGrid} (h1 : g1.buf = g2.buf)
    (h2 : g1.width = g2.width) (h3 : g1.height = g2.height) : g1 = g2 := by
  cases g1; cases g2; simp_all

theorem chunk_toBytes_length (c : CodecChunkCompressedFrame) : c.toBytes.length = 6 := rfl

theorem header_toBytes_new_length (n w h : Nat) :
    (CodecHeader.new n w h).toBytes.length = 128 := rfl

theorem u16_decode (a : Nat) : a % 256 + 256 * (a / 256 % 256) = a % 65536 := by omega

theorem u32_decode (a : Nat) :
    a % 256 + 256 * (a / 256 % 256) + 65536 * (a / 65536 % 256) +
      16777216 * (a / 16777216 % 256) = a % 4294967296 := by omega

theorem getD_at_append {α : Type} (A B : List α) (d : α) (i k : Nat)
    (h : i = A.length + k) : (A ++ B).getD i d = B.getD k d := by
  subst h
  rw [getD_append_ge _ _ _ _ (by omega)]
  congr 1
  omega

theorem u16at_append (A B : List Nat) (i k : Nat) (h : i = A.length + k) :
    u16at (A ++ B) i = u16at B k := by
  unfold u16at
  rw [getD_at_append _ _ _ _ _ h, getD_at_append _ _ _ _ (k + 1) (by omega)]

theorem u32at_append (A B : List Nat) (i k : Nat) (h : i = A.length + k) :
    u32at (A ++ B) i = u32at B k := by
  unfold u32at
  rw [getD_at_append _ _ _ _ _ h, getD_at_append _ _ _ _ (k + 1) (by omega),
    getD_at_append _ _ _ _ (k + 2) (by omega), getD_at_append _ _ _ _ (k + 3) (by omega)]

theorem drop_at_append {α : Type} (A B : List α) (i k : Nat) (h : i = A.length + k) :
    (A ++ B).drop i = B.drop k := by
  subst h
  induction A generalizing k with
  | nil => simp
  | cons a A2 ih =>
    rw [List.cons_append, List.length_cons,
      show A2.length + 1 + k = (A2.length + k) + 1 by omega, List.drop_succ_cons]
    exact ih k

theorem u16at_u16le (a : Nat) (rest : List Nat) : u16at (u16le a ++ rest) 0 = a % 65536 := by
  show (u16le a ++ rest).getD 0 0 + 256 * (u16le a ++ rest).getD (0 + 1) 0 = a % 65536
  rw [getD_append_lt _ _ _ _ (by simp [u16le]), getD_append_lt _ _ _ _ (by simp [u16le])]
  show a % 256 + 256 * (a / 256 % 256) = a % 65536
  omega

theorem u32at_u32le (a : Nat) (rest : List Nat) :
    u32at (u32le a ++ rest) 0 = a % 4294967296 := by
  show (u32le a ++ rest).getD 0 0 + 256 * (u32le a ++ rest).getD (0 + 1) 0
      + 65536 * (u32le a ++ rest).getD (0 + 2) 0
      + 16777216 * (u32le a ++ rest).getD (0 + 3) 0 = a % 4294967296
  rw [getD_append_lt _ _ _ _ (by simp [u32le]), getD_append_lt _ _ _ _ (by simp [u32le]),
    getD_append_lt _ _ _ _ (by simp [u32le]), getD_append_lt _ _ _ _ (by simp [u32le])]
  show a % 256 + 256 * (a / 256 % 256) + 65536 * (a / 65536 % 256)
      + 16777216 * (a / 16777216 % 256) = a % 4294967296
  omega

theorem header_new_assoc (n w h : Nat) :
    (CodecHeader.new n w h).toBytes =
      MAGIC ++ (u32le 2 ++ (u32le (n % 4294967296) ++ (u16le (w % 65536) ++
        (u16le (h % 65536) ++ List.replicate 104 0)))) := by
  show MAGIC ++ u32le 2 ++ u32le (n % 4294967296) ++ u16le (w % 65536) ++
      u16le (h % 65536) ++ List.replicate 104 0 = _
  simp [List.append_assoc]

/-- Reading back an encoded header recovers it, whatever follows it. -/
theorem CodecHeader.read_new (n w h : Nat) (rest : List Nat) :
    CodecHeader.read ((CodecHeader.new n w h).toBytes ++ rest)
      = some (CodecHeader.new n w h) := by
  rw [header_new_assoc]
  simp only [List.append_assoc]
  unfold CodecHeader.read
  rw [if_pos (by simp [MAGIC, u32le, u16le])]
  refine congrArg some ?_
  unfold CodecHeader.new
  rw [CodecHeader.mk.injEq]
  refine ⟨?_, ?_, ?_, ?_, ?_, ?_⟩
  · show (MAGIC ++ _).take 12 = MAGIC
    rw [show (12 : Nat) = MAGIC.length by decide, List.take_left]
  · rw [u32at_append MAGIC _ 12 0 (by decide), u32at_u32le]
    rfl
  · rw [u32at_append MAGIC _ 16 4 (by decide),
      u32at_append (u32le 2) _ 4 0 (by simp [u32le]), u32at_u32le]
    omega
  · rw [u16at_append MAGIC _ 20 8 (by decide),
      u16at_append (u32le 2) _ 8 4 (by simp [u32le]),
      u16at_append (u32le (n % 4294967296)) _ 4 0 (by simp [u32le]), u16at_u16le]
    omega
  · rw [u16at_append MAGIC _ 22 10 (by decide),
      u16at_append (u32le 2) _ 10 6 (by simp [u32le]),
      u16at_append (u32le (n % 4294967296)) _ 6 2 (by simp [u32le]),
      u16at_append (u16le (w % 65536)) _ 2 0 (by simp [u16le]), u16at_u16le]
    omega
  · rw [drop_at_append MAGIC _ 24 12 (by decide),
      drop_at_append (u32le 2) _ 12 8 (by simp [u32le]),
      drop_at_append (u32le (n % 4294967296)) _ 8 4 (by simp [u32le]),
      drop_at_append (u16le (w % 65536)) _ 4 2 (by simp [u16le]),
      drop_at_append (u16le (h % 65536)) _ 2 0 (by simp [u16le])]
    show (List.replicate 104 0 ++ rest).take 104 = List.replicate 104 0
    exact List.take_left' (by simp)

/-- Constructing a decoder on a stream that starts with an encoded header. -/
theorem VideoDecoder.new_encoded (n w h : Nat) (rest : List Nat) :
    VideoDecoder.new ((CodecHeader.new n w h).toBytes ++ rest)
      = some ⟨(CodecHeader.new n w h).toBytes ++ rest, 128,
              BitGrid.new (w % 65536) (h % 65536), 0⟩ := by
  unfold VideoDecoder.new
  rw [if_neg (by simp [header_toBytes_new_length])]
  have htake : ((CodecHeader.new n w h).toBytes ++ rest).take 128
      = (CodecHeader.new n w h).toBytes ++ ([] : List Nat) := by
    rw [List.append_nil]
    exact List.take_left' (header_toBytes_new_length n w h)
  rw [htake, CodecHeader.read_new]
  show (if (CodecHeader.new n w h).version ≠ 2 then none
        else some (VideoDecoder.mk ((CodecHeader.new n w h).toBytes ++ rest) 128
          (BitGrid.new (CodecHeader.new n w h).width (CodecHeader.new n w h).height) 0)) = _
  rw [if_neg (by simp [CodecHeader.new, VERSION])]
  rfl

theorem chunk_read_toBytes (k sz comp bg : Nat) (hk : k < 65536) (hsz : sz < 65536)
    (hcomp : comp < 256) (hbg : bg < 256) :
    CodecChunkCompressedFrame.read (CodecChunkCompressedFrame.mk k sz comp bg).toBytes
      = some (CodecChunkCompressedFrame.mk k sz comp bg) := by
  show CodecChunkCompressedFrame.read
    (u16le k ++ (u16le sz ++ [comp % 256, bg % 256])) = _
  unfold CodecChunkCompressedFrame.read
  rw [if_pos (by simp [u16le])]
  refine congrArg some ?_
  rw [CodecChunkCompressedFrame.mk.injEq]
  refine ⟨?_, ?_, ?_, ?_⟩
  · rw [u16at_u16le]
    omega
  · rw [u16at_append (u16le k) _ 2 0 (by simp [u16le]), u16at_u16le]
    omega
  · rw [getD_at_append (u16le k) _ 0 4 2 (by simp [u16le]),
      getD_at_append (u16le sz) _ 0 2 0 (by simp [u16le])]
    show comp % 256 = comp
    omega
  · rw [getD_at_append (u16le k) _ 0 5 3 (by simp [u16le]),
      getD_at_append (u16le sz) _ 0 3 1 (by simp [u16le])]
    show bg % 256 = bg
    omega

theorem compress_uncompressed_eq (g : BitGrid) :
    compress_uncompressed g =
      (CodecChunkCompressedFrame.mk 1 (g.buf.length % 65536) 0 0).toBytes ++ g.buf := rfl

theorem compress_runlength_eq (g : BitGrid) :
    compress_runlength g =
      (CodecChunkCompressedFrame.mk 1 ((rlePayload g).length % 65536) 1 0).toBytes
        ++ rlePayload g := rfl

theorem length_compress_uncompressed (g : BitGrid) :
    (compress_uncompressed g).length = 6 + g.buf.length := by
  rw [compress_uncompressed_eq, List.length_append, chunk_toBytes_length]

theorem length_compress_runlength (g : BitGrid) :
    (compress_runlength g).length = 6 + (rlePayload g).length := by
  rw [compress_runlength_eq, List.length_append, chunk_toBytes_length]

/-- The packed buffer of a safe-dimension grid stays well below 2^16 bytes. -/
theorem bufLen_bound {w h : Nat} (hd : DimsSafe w h) : ((w + 7) / 8) * h ≤ 34815 := by
  obtain ⟨h1, h2, h3⟩ := hd
  have hw : w ≤ 16384 := by omega
  have hs : (w + 7) / 8 ≤ 2048 := by
    have := Nat.div_le_div_right (c := 8) (Nat.add_le_add_right hw 7)
    omega
  cases h with
  | zero => simp
  | succ m =>
    have hsm : ((w + 7) / 8) * (m + 1) = m * ((w + 7) / 8) + (w + 7) / 8 := by
      rw [Nat.mul_comm, Nat.succ_mul]
    have h3m : m * ((w + 7) / 8) + (w - 1) / 8 ≤ 32767 := by simpa using h3
    omega

/-! ## Decoder step lemmas -/

theorem VideoDecoder.next_of_le (d : VideoDecoder) (n : Nat)
    (hn : d.curr + n ≤ d.bytes.length) :
    d.next n = (some ((d.bytes.drop d.curr).take n), { d with curr := d.curr + n }) := by
  unfold next
  rw [if_pos hn]

theorem VideoDecoder.next_of_gt (d : VideoDecoder) (n : Nat)
    (hn : d.bytes.length < d.curr + n) :
    d.next n = (none, { d with curr := d.bytes.length }) := by
  unfold next
  rw [if_neg (by omega)]

/-- Too few bytes even for a chunk header: graceful end of stream, cursor
pinned at the end, everything else untouched. -/
theorem VideoDecoder.next_frame_end (d : VideoDecoder) (h : d.bytes.length < d.curr + 6) :
    d.next_frame = some (none, { d with curr := d.bytes.length }) := by
  unfold next_frame
  rw [next_of_gt d 6 h]

/-- With the cursor at the end of the buffer, `next_frame` is a no-op
returning no frame: the exhausted decoder is a fixpoint. -/
theorem VideoDecoder.next_frame_at_end (d : VideoDecoder) (h : d.curr = d.bytes.length) :
    d.next_frame = some (none, d) := by
  rw [VideoDecoder.next_frame_end d (by omega)]
  have hd : ({ d with curr := d.bytes.length } : VideoDecoder) = d := by
    cases d
    simp_all
  rw [hd]

theorem decodeAll_at_end (d : VideoDecoder) (h : d.curr = d.bytes.length) :
    ∀ k, decodeAll k d = some ([], d) := by
  intro k
  cases k with
  | zero => rfl
  | succ m =>
    show decodeAll (m + 1) d = some ([], d)
    unfold decodeAll
    rw [VideoDecoder.next_frame_at_end d h]

theorem u16at_drop_take (bs : List Nat) (c : Nat) :
    u16at ((bs.drop c).take 6) 2 = u16at bs (c + 2) := by
  unfold u16at
  rw [getD_take _ _ _ _ (by omega), getD_take _ _ _ _ (by omega), getD_drop, getD_drop]

/-- Every end-of-stream return of `next_frame` pins the cursor at the end of
the buffer and leaves the frame counter alone; the persistent grid is either
untouched (chunk-header underrun) or — on a truncated payload, after the
`mem::swap` — replaced by the 0×0 dummy. -/
theorem VideoDecoder.next_frame_none_cases (d d' : VideoDecoder)
    (h : d.next_frame = some (none, d')) :
    d'.bytes = d.bytes ∧ d'.curr = d.bytes.length ∧ d'.frame_num = d.frame_num ∧
      (d'.bitmap = d.bitmap ∨ d'.bitmap = BitGrid.new 0 0) := by
  unfold next_frame at h
  split at h
  · rename_i d1 heq
    unfold next at heq
    split at heq
    · exact absurd heq (by simp)
    · rw [Prod.mk.injEq] at heq
      obtain ⟨-, h1⟩ := heq
      rw [Option.some.injEq, Prod.mk.injEq] at h
      obtain ⟨-, h2⟩ := h
      rw [← h2, ← h1]
      exact ⟨rfl, rfl, rfl, Or.inl rfl⟩
  · rename_i hdr d1 heq
    split at h
    · rename_i hread
      unfold next at heq
      split at heq
      · rename_i hle
        rw [Prod.mk.injEq] at heq
        obtain ⟨hh1, -⟩ := heq
        rw [Option.some.injEq] at hh1
        unfold CodecChunkCompressedFrame.read at hread
        rw [← hh1] at hread
        rw [if_pos (by rw [List.length_take, List.length_drop]; omega)] at hread
        exact absurd hread (by simp)
      · exact absurd heq (by simp)
    · rename_i chunk hread
      rcases heq3 : ({ d1 with bitmap := BitGrid.new 0 0 } : VideoDecoder).next chunk.size
        with ⟨o3, d3⟩
      simp only [heq3] at h
      cases o3 with
      | none =>
        have h2 : (some (none, d3) : Option (Option Frame × VideoDecoder))
            = some (none, d') := h
        rw [Option.some.injEq, Prod.mk.injEq] at h2
        obtain ⟨-, h2⟩ := h2
        unfold next at heq3
        split at heq3
        · exact absurd heq3 (by simp)
        · rw [Prod.mk.injEq] at heq3
          obtain ⟨-, h3⟩ := heq3
          unfold next at heq
          split at heq
          · rw [Prod.mk.injEq] at heq
            obtain ⟨-, h1⟩ := heq
            rw [← h2, ← h3, ← h1]
            exact ⟨rfl, rfl, rfl, Or.inr rfl⟩
          · exact absurd heq (by simp)
      | some payload =>
        split at h
        · rename_i d1x heqx
          exact absurd heqx (by simp)
        · rename_i hdrx d1x heqx
          split at h
          · split at h
            · exact absurd h (by simp)
            · rw [Option.some.injEq, Prod.mk.injEq] at h
              simp at h
          · split at h
            · rw [Option.some.injEq, Prod.mk.injEq] at h
              simp at h
            · exact absurd h (by simp)

/-- Shape of the chunk `encode_to` writes for one frame: a 6-byte chunk
header carrying the payload length and compression kind, then the payload,
which always fits the `u16` size field. -/
theorem encodeFrameChunk_cases {w h : Nat} (hd : DimsSafe w h) (g : BitGrid)
    (hgw : g.width = w) (hgh : g.height = h) (hWF : g.WF) :
    ∃ (cb : Nat) (payload : List Nat),
      ((cb = 0 ∧ payload = g.buf ∧
          (compress_uncompressed g).length ≤ (compress_runlength g).length) ∨
       (cb = 1 ∧ payload = rlePayload g ∧
          (compress_runlength g).length < (compress_uncompressed g).length)) ∧
      payload.length < 65536 ∧
      encodeFrameChunk g
        = (CodecChunkCompressedFrame.mk 1 (payload.length % 65536) cb 0).toBytes
            ++ payload := by
  have hbuf : g.buf.length = ((w + 7) / 8) * h := by
    rw [hWF, hgw, hgh]
  have hible : g.buf.length < 65536 := by
    have := bufLen_bound hd
    omega
  unfold encodeFrameChunk
  by_cases hle : (compress_uncompressed g).length ≤ (compress_runlength g).length
  · rw [if_pos hle]
    exact ⟨0, g.buf, Or.inl ⟨rfl, rfl, hle⟩, hible, compress_uncompressed_eq g⟩
  · rw [if_neg hle]
    have hrlen : (rlePayload g).length < g.buf.length := by
      have h1 := length_compress_uncompressed g
      have h2 := length_compress_runlength g
      omega
    exact ⟨1, rlePayload g, Or.inr ⟨rfl, rfl, by omega⟩, by omega,
      compress_runlength_eq g⟩

/-! ## Shape preservation through the run-length expansion -/

theorem BitGrid.set_fst_width (g : BitGrid) (x y : Int) (e : Bool) :
    ((g.set x y e).1).width = g.width := rfl

theorem BitGrid.set_fst_height (g : BitGrid) (x y : Int) (e : Bool) :
    ((g.set x y e).1).height = g.height := rfl

theorem BitGrid.set_fst_buf_length (g : BitGrid) (x y : Int) (e : Bool) :
    ((g.set x y e).1).buf.length = g.buf.length := by
  unfold set
  simp

theorem writeCells_pres : ∀ (n : Nat) (st : BitGrid × Nat × Nat),
    (writeCells n st).1.width = st.1.width ∧ (writeCells n st).1.height = st.1.height ∧
      (writeCells n st).1.buf.length = st.1.buf.length := by
  intro n
  induction n with
  | zero => intro st; exact ⟨rfl, rfl, rfl⟩
  | succ m ih =>
    intro st
    obtain ⟨g, x, y⟩ := st
    by_cases hc : ((g.set x y true).1).width ≤ x + 1
    · have he : writeCells (m + 1) (g, x, y) = writeCells m ((g.set x y true).1, 0, y + 1) := by
        show (if ((g.set x y true).1).width ≤ x + 1 then _ else _) = _
        rw [if_pos hc]
      rw [he]
      obtain ⟨w1, h1, l1⟩ := ih ((g.set x y true).1, 0, y + 1)
      exact ⟨w1.trans (g.set_fst_width x y true), h1.trans (g.set_fst_height x y true),
        l1.trans (g.set_fst_buf_length x y true)⟩
    · have he : writeCells (m + 1) (g, x, y) = writeCells m ((g.set x y true).1, x + 1, y) := by
        show (if ((g.set x y true).1).width ≤ x + 1 then _ else _) = _
        rw [if_neg hc]
      rw [he]
      obtain ⟨w1, h1, l1⟩ := ih ((g.set x y true).1, x + 1, y)
      exact ⟨w1.trans (g.set_fst_width x y true), h1.trans (g.set_fst_height x y true),
        l1.trans (g.set_fst_buf_length x y true)⟩

theorem expandStep_pres (st : BitGrid × Nat × Nat) (pr : Nat × Nat) :
    (expandStep st pr).1.width = st.1.width ∧ (expandStep st pr).1.height = st.1.height ∧
      (expandStep st pr).1.buf.length = st.1.buf.length := by
  unfold expandStep
  exact writeCells_pres pr.2 _

theorem foldl_expandStep_pres : ∀ (ps : List (Nat × Nat)) (st : BitGrid × Nat × Nat),
    ((ps.foldl expandStep st).1.width = st.1.width ∧
     (ps.foldl expandStep st).1.height = st.1.height ∧
     (ps.foldl expandStep st).1.buf.length = st.1.buf.length) := by
  intro ps
  induction ps with
  | nil => intro st; exact ⟨rfl, rfl, rfl⟩
  | cons p rest ih =>
    intro st
    obtain ⟨w1, h1, l1⟩ := ih (expandStep st p)
    obtain ⟨w2, h2, l2⟩ := expandStep_pres st p
    exact ⟨w1.trans w2, h1.trans h2, l1.trans l2⟩

theorem expand_runlength_pres (g : BitGrid) (bs : List Nat) :
    (expand_runlength g bs).width = g.width ∧ (expand_runlength g bs).height = g.height ∧
      (expand_runlength g bs).buf.length = g.buf.length := by
  unfold expand_runlength
  exact foldl_expandStep_pres (rlePairs bs) (g, 0, 0)

/-! ## The decoded contents of one encoded frame chunk -/

theorem decodedGrid_dims (g : BitGrid) (hWF : g.WF) :
    (decodedGrid g).width = g.width ∧ (decodedGrid g).height = g.height ∧
      (decodedGrid g).buf.length = ((g.width + 7) / 8) * g.height := by
  unfold decodedGrid
  by_cases hle : (compress_uncompressed g).length ≤ (compress_runlength g).length
  · rw [if_pos hle]
    exact ⟨rfl, rfl, hWF⟩
  · rw [if_neg hle]
    obtain ⟨w1, h1, l1⟩ := expand_runlength_pres
      ⟨List.replicate (((g.width + 7) / 8) * g.height) 0, g.width, g.height⟩ (rlePayload g)
    refine ⟨w1, h1, ?_⟩
    rw [l1]
    simp

/-- Under the run bound, the grid the decoder reconstructs from one frame
chunk agrees, pixel for pixel, with the encoded grid. -/
theorem decodedGrid_get {w h : Nat} (hd : DimsSafe w h) (g : BitGrid)
    (hgw : g.width = w) (hgh : g.height = h) (hWF : g.WF)
    (hb : RunsBounded g.scanOrder) {x y : Nat} (hx : x < w) (hy : y < h) :
    (decodedGrid g).get x y = g.get x y := by
  unfold decodedGrid
  by_cases hle : (compress_uncompressed g).length ≤ (compress_runlength g).length
  · rw [if_pos hle]
  · rw [if_neg hle]
    have hrlen : (rlePayload g).length < g.buf.length := by
      have h1 := length_compress_uncompressed g
      have h2 := length_compress_runlength g
      omega
    have hbufpos : 0 < g.buf.length := by omega
    have hbuf : g.buf.length = ((w + 7) / 8) * h := by rw [hWF, hgw, hgh]
    have hwpos : 0 < w := by
      by_contra hc
      have : w = 0 := by omega
      rw [this] at hbuf
      omega
    have hhpos : 0 < h := by
      by_contra hc
      have : h = 0 := by omega
      rw [this] at hbuf
      omega
    have hpayload : rlePayload g = runsSpec g.scanOrder := rlePayload_of_bounded g hb
    have hbools : pairsToBools (rlePairs (rlePayload g)) = g.scanOrder := by
      rw [hpayload]
      exact pairsToBools_runsSpec g.scanOrder
    have hlen : (pairsToBools (rlePairs (rlePayload g))).length ≤ w * h := by
      rw [hbools, length_scanOrder, hgw, hgh, Nat.mul_comm]
    have htarget : (⟨List.replicate (((g.width + 7) / 8) * g.height) 0, g.width, g.height⟩ : BitGrid)
        = ⟨List.replicate (((w + 7) / 8) * h) 0, w, h⟩ := by
      rw [hgw, hgh]
    rw [htarget]
    obtain ⟨c1, c2, c3, c4⟩ := expand_runlength_spec hd hwpos (rlePayload g) hlen
    have hgetn := c4 x hx y hy
    have hdec : DimsSafe (expand_runlength ⟨List.replicate (((w + 7) / 8) * h) 0, w, h⟩
        (rlePayload g)).width (expand_runlength ⟨List.replicate (((w + 7) / 8) * h) 0, w, h⟩
        (rlePayload g)).height := by
      rw [c1, c2]; exact hd
    rw [BitGrid.get_inRange _ hdec (by rw [c1]; exact hx) (by rw [c2]; exact hy),
      hgetn, hbools]
    have hscan : g.scanOrder.getD (y * w + x) false = g.get x y := by
      have := @getD_scanOrder g x y (by rw [hgw]; exact hx) (by rw [hgh]; exact hy)
      rw [hgw] at this
      exact this
    rw [hscan]

/-- Every successful `next_frame` call advances the cursor by exactly one
chunk — the 6-byte header plus the payload size the header declares — and
issues the next sequential frame id. -/
theorem VideoDecoder.next_frame_some_cases (d d' : VideoDecoder) (f : Frame)
    (h : d.next_frame = some (some f, d')) :
    d'.bytes = d.bytes ∧ d'.curr = d.curr + 6 + u16at d.bytes (d.curr + 2) ∧
      d'.frame_num = d.frame_num + 1 ∧ f.id = d'.frame_num ∧
      d.curr + 6 ≤ d.bytes.length := by
  unfold next_frame at h
  split at h
  · exact absurd h (by simp)
  · rename_i hdr d1 heq
    split at h
    · exact absurd h (by simp)
    · rename_i chunk hread
      rcases heq3 : ({ d1 with bitmap := BitGrid.new 0 0 } : VideoDecoder).next chunk.size
        with ⟨o3, d3⟩
      simp only [heq3] at h
      cases o3 with
      | none =>
        have h2 : (some (none, d3) : Option (Option Frame × VideoDecoder))
            = some (some f, d') := h
        simp at h2
      | some payload =>
        unfold next at heq
        split at heq
        · rename_i hle6
          rw [Prod.mk.injEq, Option.some.injEq] at heq
          obtain ⟨hhdr, hd1⟩ := heq
          unfold CodecChunkCompressedFrame.read at hread
          rw [← hhdr] at hread
          rw [if_pos (by rw [List.length_take, List.length_drop]; omega)] at hread
          rw [Option.some.injEq] at hread
          have hsize : chunk.size = u16at d.bytes (d.curr + 2) := by
            rw [← hread]
            show u16at ((d.bytes.drop d.curr).take 6) 2 = _
            exact u16at_drop_take d.bytes d.curr
          unfold next at heq3
          split at heq3
          · rename_i hle3
            rw [Prod.mk.injEq, Option.some.injEq] at heq3
            obtain ⟨hpay, hd3⟩ := heq3
            split at h
            · rename_i d1y heqy
              exact absurd heqy (by simp)
            · rename_i hdrx d1x heqx
              rw [Prod.mk.injEq, Option.some.injEq] at heqx
              obtain ⟨hpayx, hd1x⟩ := heqx
              subst hpayx
              subst hd1x
              split at h
              · split at h
                · exact absurd h (by simp)
                · rename_i bm hbm
                  rw [Option.some.injEq, Prod.mk.injEq] at h
                  obtain ⟨hf, hd'⟩ := h
                  rw [Option.some.injEq] at hf
                  subst hf
                  subst hd'
                  subst hd3
                  subst hd1
                  refine ⟨rfl, ?_, rfl, rfl, hle6⟩
                  show d.curr + 6 + chunk.size = d.curr + 6 + u16at d.bytes (d.curr + 2)
                  rw [hsize]
              · split at h
                · rw [Option.some.injEq, Prod.mk.injEq] at h
                  obtain ⟨hf, hd'⟩ := h
                  rw [Option.some.injEq] at hf
                  subst hf
                  subst hd'
                  subst hd3
                  subst hd1
                  refine ⟨rfl, ?_, rfl, rfl, hle6⟩
                  show d.curr + 6 + chunk.size = d.curr + 6 + u16at d.bytes (d.curr + 2)
                  rw [hsize]
                · exact absurd h (by simp)
          · rw [Prod.mk.injEq] at heq3
            obtain ⟨hcontra, -⟩ := heq3
            exact absurd hcontra (by simp)
        · rw [Prod.mk.injEq] at heq
          obtain ⟨hcontra, -⟩ := heq
          exact absurd hcontra (by simp)

/-- A decoder whose cursor sits at the start of an encoded frame chunk (with
a persistent grid of the stream's dimensions) returns that frame's decoded
grid and advances the cursor exactly past the chunk. -/
theorem VideoDecoder.next_frame_chunk {w h : Nat} (hd : DimsSafe w h)
    (g : BitGrid) (hgw : g.width = w) (hgh : g.height = h) (hWF : g.WF)
    (d : VideoDecoder) (post : List Nat)
    (hbytes : d.bytes.drop d.curr = encodeFrameChunk g ++ post)
    (hbw : d.bitmap.width = w) (hbh : d.bitmap.height = h)
    (hbl : d.bitmap.buf.length = ((w + 7) / 8) * h) :
    d.next_frame = some
      (some { id := d.frame_num + 1, bitmap := decodedGrid g, background_set := false },
       { bytes := d.bytes, curr := d.curr + (encodeFrameChunk g).length,
         bitmap := decodedGrid g, frame_num := d.frame_num + 1 }) := by
  obtain ⟨cb, payload, hbr, hplen, hchunk⟩ := encodeFrameChunk_cases hd g hgw hgh hWF
  have hlen6 : (CodecChunkCompressedFrame.mk 1 (payload.length % 65536) cb 0).toBytes.length
      = 6 := chunk_toBytes_length _
  have hlenchunk : (encodeFrameChunk g).length = 6 + payload.length := by
    rw [hchunk, List.length_append, hlen6]
  have hdlen := congrArg List.length hbytes
  rw [List.length_drop, List.length_append, hlenchunk] at hdlen
  have hge : d.curr + 6 + payload.length ≤ d.bytes.length := by omega
  have hd1le : d.curr + 6 ≤ d.bytes.length := by omega
  have hhdr : (d.bytes.drop d.curr).take 6
      = (CodecChunkCompressedFrame.mk 1 (payload.length % 65536) cb 0).toBytes := by
    rw [hbytes, hchunk, List.append_assoc]
    exact List.take_left' hlen6
  have hcb : cb < 256 := by rcases hbr with ⟨hc, -⟩ | ⟨hc, -⟩ <;> omega
  have hszlt : payload.length % 65536 < 65536 := Nat.mod_lt _ (by norm_num)
  have hszeq : payload.length % 65536 = payload.length := Nat.mod_eq_of_lt hplen
  have hread := chunk_read_toBytes 1 (payload.length % 65536) cb 0 (by norm_num) hszlt hcb
    (by norm_num)
  rw [hszeq] at hread
  have hdrop6 : d.bytes.drop (d.curr + 6) = payload ++ post := by
    rw [← List.drop_drop, hbytes, hchunk,
      List.append_assoc, drop_at_append _ _ 6 0 (by rw [hlen6]), List.drop_zero]
  have hpayback : (d.bytes.drop (d.curr + 6)).take payload.length = payload := by
    rw [hdrop6]
    exact List.take_left' rfl
  have hnx2 := VideoDecoder.next_of_le
    (VideoDecoder.mk d.bytes (d.curr + 6) (BitGrid.new 0 0) d.frame_num) payload.length hge
  have hcl : d.curr + (encodeFrameChunk g).length = d.curr + 6 + payload.length := by
    rw [hlenchunk]
    omega
  rcases hbr with ⟨hcb0, hpay0, hle⟩ | ⟨hcb1, hpay1, hlt⟩
  · subst hcb0
    subst hpay0
    have hexp : expand_uncompressed d.bitmap.clear g.buf
        = some (BitGrid.mk g.buf d.bitmap.width d.bitmap.height) := by
      unfold expand_uncompressed BitGrid.clear
      rw [if_pos (by simp only [List.length_replicate]; rw [hbl, hWF, hgw, hgh])]
    have hdg : decodedGrid g = BitGrid.mk g.buf d.bitmap.width d.bitmap.height := by
      unfold decodedGrid
      rw [if_pos hle, hgw, hgh, hbw, hbh]
    simp only [VideoDecoder.next_frame, next_of_le d 6 hd1le, hhdr, hread, hszeq, hnx2,
      hpayback]
    rw [if_pos trivial]
    simp only [hexp]
    rw [hdg, hcl]
  · subst hcb1
    subst hpay1
    have hclear : d.bitmap.clear
        = BitGrid.mk (List.replicate (((g.width + 7) / 8) * g.height) 0) g.width g.height := by
      apply BitGrid.eq_of_fields
      · show List.replicate d.bitmap.buf.length 0
            = List.replicate (((g.width + 7) / 8) * g.height) 0
        rw [hbl, hgw, hgh]
      · show d.bitmap.width = g.width
        rw [hbw, hgw]
      · show d.bitmap.height = g.height
        rw [hbh, hgh]
    have hdg : decodedGrid g = expand_runlength d.bitmap.clear (rlePayload g) := by
      unfold decodedGrid
      rw [if_neg (by omega), hclear]
    simp only [VideoDecoder.next_frame, next_of_le d 6 hd1le, hhdr, hread, hszeq, hnx2,
      hpayback]
    rw [if_neg (by omega), if_pos trivial, hdg, hcl]

/-! ## Walking a whole encoded stream -/

theorem framesFor_length : ∀ (gs : List BitGrid) (k : Nat),
    (framesFor k gs).length = gs.length := by
  intro gs
  induction gs with
  | nil => intro k; rfl
  | cons g rest ih =>
    intro k
    simp only [framesFor, List.length_cons, ih]

theorem framesFor_getD : ∀ (gs : List BitGrid) (k i : Nat), i < gs.length →
    (framesFor k gs).getD i frame0
      = { id := k + i + 1, bitmap := decodedGrid (gs.getD i (BitGrid.new 0 0)),
          background_set := false } := by
  intro gs
  induction gs with
  | nil => intro k i hi; simp at hi
  | cons g rest ih =>
    intro k i hi
    cases i with
    | zero => rfl
    | succ j =>
      show (framesFor (k + 1) rest).getD j frame0 = _
      rw [ih (k + 1) j (by simp only [List.length_cons] at hi; omega), Frame.mk.injEq]
      exact ⟨by omega, rfl, rfl⟩

/-- Decoding a stream whose remaining bytes are exactly a sequence of
encoded frame chunks yields one frame per chunk — the decoded grids, with
sequential ids — and leaves the decoder exhausted at the end of the
buffer. -/
theorem decode_walk {w h : Nat} (hd : DimsSafe w h) :
    ∀ (gs : List BitGrid), (∀ g ∈ gs, g.width = w ∧ g.height = h ∧ g.WF) →
    ∀ d : VideoDecoder,
      d.bytes.drop d.curr = (gs.map encodeFrameChunk).flatten →
      d.curr ≤ d.bytes.length →
      d.bitmap.width = w → d.bitmap.height = h →
      d.bitmap.buf.length = ((w + 7) / 8) * h →
    ∀ fuel, gs.length < fuel →
      ∃ dend, decodeAll fuel d = some (framesFor d.frame_num gs, dend) ∧
        dend.bytes = d.bytes ∧ dend.curr = d.bytes.length ∧
        dend.frame_num = d.frame_num + gs.length ∧
        dend.bitmap.width = w ∧ dend.bitmap.height = h ∧
        dend.bitmap.buf.length = ((w + 7) / 8) * h := by
  intro gs
  induction gs with
  | nil =>
    intro hall d hdrop hcurr hbw hbh hbl fuel hfuel
    have hlen := congrArg List.length hdrop
    rw [List.length_drop] at hlen
    simp only [List.map_nil, List.flatten_nil, List.length_nil] at hlen
    have hce : d.curr = d.bytes.length := by omega
    exact ⟨d, by rw [decodeAll_at_end d hce fuel]; rfl, rfl, hce, by simp, hbw, hbh, hbl⟩
  | cons g rest ih =>
    intro hall d hdrop hcurr hbw hbh hbl fuel hfuel
    obtain ⟨hgw, hgh, hgWF⟩ := hall g (by simp)
    have hdropc : d.bytes.drop d.curr
        = encodeFrameChunk g ++ (rest.map encodeFrameChunk).flatten := by
      simpa using hdrop
    have hstep := VideoDecoder.next_frame_chunk hd g hgw hgh hgWF d _ hdropc hbw hbh hbl
    obtain ⟨dw, dh, dl⟩ := decodedGrid_dims g hgWF
    have hdlen := congrArg List.length hdropc
    rw [List.length_drop, List.length_append] at hdlen
    have hcurr1 : d.curr + (encodeFrameChunk g).length ≤ d.bytes.length := by omega
    have hdrop1 : d.bytes.drop (d.curr + (encodeFrameChunk g).length)
        = (rest.map encodeFrameChunk).flatten := by
      rw [← List.drop_drop, hdropc,
        drop_at_append _ _ (encodeFrameChunk g).length 0 (by simp), List.drop_zero]
    cases fuel with
    | zero => omega
    | succ f =>
      have hf : rest.length < f := by simp only [List.length_cons] at hfuel; omega
      obtain ⟨dend, hwalk, hb, hc, hn, hw1, hh1, hl1⟩ := ih
        (fun g2 hg2 => hall g2 (by simp [hg2]))
        (VideoDecoder.mk d.bytes (d.curr + (encodeFrameChunk g).length) (decodedGrid g)
          (d.frame_num + 1))
        hdrop1 hcurr1 (by rw [dw, hgw]) (by rw [dh, hgh])
        (by rw [dl, hgw, hgh]) f hf
      refine ⟨dend, ?_, hb, hc, ?_, hw1, hh1, hl1⟩
      · show decodeAll (f + 1) d = _
        unfold decodeAll
        rw [hstep]
        show (match decodeAll f (VideoDecoder.mk d.bytes
            (d.curr + (encodeFrameChunk g).length) (decodedGrid g) (d.frame_num + 1)) with
          | none => none
          | some (fs, dfin) => some
              (({ id := d.frame_num + 1, bitmap := decodedGrid g,
                  background_set := false } : Frame) :: fs, dfin)) = _
        rw [hwalk]
        rfl
      · show dend.frame_num = d.frame_num + (g :: rest).length
        rw [hn]
        show d.frame_num + 1 + rest.length = d.frame_num + (g :: rest).length
        simp only [List.length_cons]
        omega

/-! ## The encoder's queue and the full encoded stream -/

theorem foldl_push_dims : ∀ (gs : List BitGrid) (e : VideoEncoder) (p : Nat × Nat),
    e.dims = some p →
    (gs.foldl VideoEncoder.push e).dims = some p ∧
    (gs.foldl VideoEncoder.push e).frames = e.frames ++ gs := by
  intro gs
  induction gs with
  | nil => intro e p hp; exact ⟨hp, by simp⟩
  | cons g rest ih =>
    intro e p hp
    have hpush : (e.push g).dims = some p := by
      show (match e.dims with
        | none => some g.dims
        | some d => some d) = some p
      rw [hp]
    obtain ⟨h1, h2⟩ := ih (e.push g) p hpush
    refine ⟨h1, ?_⟩
    show (rest.foldl VideoEncoder.push (e.push g)).frames = e.frames ++ (g :: rest)
    rw [h2]
    show (e.frames ++ [g]) ++ rest = e.frames ++ (g :: rest)
    simp

/-- The byte stream `encode_to` produces for a nonempty queue: the header
(carrying the first frame's dimensions and the frame count) followed by the
chosen chunk of every queued frame. -/
theorem encoded_stream_eq {w h : Nat} (g0 : BitGrid) (gs : List BitGrid)
    (hg0w : g0.width = w) (hg0h : g0.height = h) :
    (((g0 :: gs).foldl VideoEncoder.push VideoEncoder.new).encode_to).2
      = (CodecHeader.new (gs.length + 1) w h).toBytes
          ++ ((g0 :: gs).map encodeFrameChunk).flatten := by
  have hp : (VideoEncoder.new.push g0).dims = some (w, h) := by
    show some g0.dims = some (w, h)
    have hdims : g0.dims = (w, h) := by
      unfold BitGrid.dims
      rw [hg0w, hg0h]
    rw [hdims]
  obtain ⟨h1, h2⟩ := foldl_push_dims gs (VideoEncoder.new.push g0) (w, h) hp
  have hfr : (VideoEncoder.new.push g0).frames ++ gs = g0 :: gs := rfl
  rw [hfr] at h2
  show (gs.foldl VideoEncoder.push (VideoEncoder.new.push g0)).encode_to.2 = _
  simp only [VideoEncoder.encode_to, h1, h2]
  simp only [List.length_cons]

/-- Constructing a decoder on an encoded stream with in-range dimensions. -/
theorem encoded_stream_new {w h : Nat} (hw : w < 65536) (hh : h < 65536)
    (n : Nat) (rest : List Nat) :
    VideoDecoder.new ((CodecHeader.new n w h).toBytes ++ rest)
      = some (VideoDecoder.mk ((CodecHeader.new n w h).toBytes ++ rest) 128
          (BitGrid.new w h) 0) := by
  rw [VideoDecoder.new_encoded, Nat.mod_eq_of_lt hw, Nat.mod_eq_of_lt hh]

/-- Decoding a freshly constructed decoder over a full encoded stream, and
the fact that `reset` afterwards restores exactly the fresh decoder. -/
theorem encoded_decode {w h : Nat} (hd : DimsSafe w h) (g0 : BitGrid) (gs : List BitGrid)
    (hall : ∀ g ∈ g0 :: gs, g.width = w ∧ g.height = h ∧ g.WF) :
    ∃ dend,
      decodeAll (gs.length + 2)
          (VideoDecoder.mk ((CodecHeader.new (gs.length + 1) w h).toBytes
              ++ ((g0 :: gs).map encodeFrameChunk).flatten) 128 (BitGrid.new w h) 0)
        = some (framesFor 0 (g0 :: gs), dend) ∧
      dend.reset = VideoDecoder.mk ((CodecHeader.new (gs.length + 1) w h).toBytes
          ++ ((g0 :: gs).map encodeFrameChunk).flatten) 128 (BitGrid.new w h) 0 := by
  obtain ⟨dend, hwalk, hb, hc, hn, hw1, hh1, hl1⟩ := decode_walk hd (g0 :: gs) hall
    (VideoDecoder.mk ((CodecHeader.new (gs.length + 1) w h).toBytes
        ++ ((g0 :: gs).map encodeFrameChunk).flatten) 128 (BitGrid.new w h) 0)
    (by
      show ((CodecHeader.new (gs.length + 1) w h).toBytes
          ++ ((g0 :: gs).map encodeFrameChunk).flatten).drop 128 = _
      rw [drop_at_append _ _ 128 0 (by rw [header_toBytes_new_length]), List.drop_zero])
    (by
      show (128 : Nat) ≤ ((CodecHeader.new (gs.length + 1) w h).toBytes
          ++ ((g0 :: gs).map encodeFrameChunk).flatten).length
      rw [List.length_append, header_toBytes_new_length]
      omega)
    rfl rfl (by simp [BitGrid.new]) (gs.length + 2)
    (by simp only [List.length_cons]; omega)
  refine ⟨dend, hwalk, ?_⟩
  have hclr : dend.bitmap.clear = BitGrid.new w h := by
    apply BitGrid.eq_of_fields
    · show List.replicate dend.bitmap.buf.length 0
          = List.replicate (((w + 7) / 8) * h) 0
      rw [hl1]
    · exact hw1
    · exact hh1
  show VideoDecoder.mk dend.bytes CodecHeader.SIZE dend.bitmap.clear 0 = _
  rw [VideoDecoder.mk.injEq]
  exact ⟨hb, rfl, hclr, rfl⟩

/-! ## One-period toroidal wrapping of `BitGrid::idx` -/

/-- Within one period on each side (`-width ≤ x < width`,
`-height ≤ y < height`), `idx` addresses the mathematically wrapped cell. -/
theorem BitGrid.idx_period (g : BitGrid) (hd : DimsSafe g.width g.height)
    (hw : 0 < g.width) (hh : 0 < g.height) {x y : Int}
    (hx1 : -(g.width : Int) ≤ x) (hx2 : x < (g.width : Int))
    (hy1 : -(g.height : Int) ≤ y) (hy2 : y < (g.height : Int)) :
    g.idx x y = g.idx (((x % (g.width : Int)).toNat : Nat) : Int)
      (((y % (g.height : Int)).toNat : Nat) : Int) := by
  obtain ⟨h1, h2, h3⟩ := hd
  have hxm0 : 0 ≤ x % (g.width : Int) := Int.emod_nonneg x (by omega)
  have hxmlt : x % (g.width : Int) < (g.width : Int) := Int.emod_lt_of_pos x (by omega)
  have hym0 : 0 ≤ y % (g.height : Int) := Int.emod_nonneg y (by omega)
  have hymlt : y % (g.height : Int) < (g.height : Int) := Int.emod_lt_of_pos y (by omega)
  have hxelt : (x % (g.width : Int)).toNat < g.width := by omega
  have hyelt : (y % (g.height : Int)).toNat < g.height := by omega
  have hL : Int.tmod (wrap16 (x + (g.width : Int))) (g.width : Int)
      = (((x % (g.width : Int)).toNat : Nat) : Int) := by
    rw [wrap16_eq_self (by omega) (by omega),
      Int.tmod_eq_emod (by omega) (by omega),
      show x + (g.width : Int) = x + (g.width : Int) * 1 by ring,
      Int.add_mul_emod_self_left, Int.toNat_of_nonneg hxm0]
  have hR : Int.tmod (wrap16 ((((x % (g.width : Int)).toNat : Nat) : Int) + (g.width : Int)))
      (g.width : Int) = (((x % (g.width : Int)).toNat : Nat) : Int) := by
    rw [show (((x % (g.width : Int)).toNat : Nat) : Int) + (g.width : Int)
        = ((((x % (g.width : Int)).toNat + g.width : Nat)) : Int) by push_cast; ring]
    rw [wrap16_eq_self (by omega) (by omega), int_tmod_coe]
    rw [show ((x % (g.width : Int)).toNat + g.width) % g.width
        = (x % (g.width : Int)).toNat from by
      rw [Nat.add_mod_right]; exact Nat.mod_eq_of_lt hxelt]
  have hLy : Int.tmod (wrap16 (y + (g.height : Int))) (g.height : Int)
      = (((y % (g.height : Int)).toNat : Nat) : Int) := by
    rw [wrap16_eq_self (by omega) (by omega),
      Int.tmod_eq_emod (by omega) (by omega),
      show y + (g.height : Int) = y + (g.height : Int) * 1 by ring,
      Int.add_mul_emod_self_left, Int.toNat_of_nonneg hym0]
  have hRy : Int.tmod (wrap16 ((((y % (g.height : Int)).toNat : Nat) : Int) + (g.height : Int)))
      (g.height : Int) = (((y % (g.height : Int)).toNat : Nat) : Int) := by
    rw [show (((y % (g.height : Int)).toNat : Nat) : Int) + (g.height : Int)
        = ((((y % (g.height : Int)).toNat + g.height : Nat)) : Int) by push_cast; ring]
    rw [wrap16_eq_self (by omega) (by omega), int_tmod_coe]
    rw [show ((y % (g.height : Int)).toNat + g.height) % g.height
        = (y % (g.height : Int)).toNat from by
      rw [Nat.add_mod_right]; exact Nat.mod_eq_of_lt hyelt]
  unfold idx
  simp only [hL, hR, hLy, hRy]

/-! ## Run-length payload bytes and the first emitted byte -/

theorem mergeEmit_lt : ∀ (ns : List Nat) (cnt : Nat), cnt < 256 →
    ∀ b ∈ mergeEmit cnt ns, b < 256 := by
  intro ns
  induction ns with
  | nil =>
    intro cnt hc b hb
    by_cases h0 : cnt > 0
    · rw [show mergeEmit cnt [] = [cnt] by simp [mergeEmit, h0]] at hb
      simp at hb
      omega
    · rw [show mergeEmit cnt [] = [] by simp [mergeEmit, h0]] at hb
      simp at hb
  | cons n rest ih =>
    intro cnt hc b hb
    have hmlt : (cnt + n) % 256 < 256 := Nat.mod_lt _ (by norm_num)
    cases rest with
    | nil =>
      by_cases h0 : (cnt + n) % 256 > 0
      · rw [show mergeEmit cnt [n] = [(cnt + n) % 256] by simp [mergeEmit, h0]] at hb
        simp at hb
        omega
      · rw [show mergeEmit cnt [n] = [] by simp [mergeEmit, h0]] at hb
        simp at hb
    | cons m ms =>
      rw [show mergeEmit cnt (n :: m :: ms) = (cnt + n) % 256 :: mergeEmit 0 (m :: ms) by
        simp [mergeEmit]] at hb
      rcases List.mem_cons.mp hb with hb | hb
      · omega
      · exact ih 0 (by norm_num) b hb

/-- The encoder's payload is the maximal run lengths, each wrapped by the
`u8` counter, with a final zero byte omitted. -/
theorem rlePayload_wrapRuns (g : BitGrid) :
    rlePayload g = wrapRuns (runsSpec g.scanOrder) :=
  (rlePayload_eq g).trans (mergeEmit_zero_eq_wrapRuns _)

theorem rlePayload_bytes_lt (g : BitGrid) : ∀ b ∈ rlePayload g, b < 256 := by
  rw [rlePayload_eq]
  exact mergeEmit_lt _ 0 (by norm_num)

/-- When the first scanned pixel is set, the first emitted byte is the
zero-length unset run. -/
theorem rlePayload_head_zero_of_set (g : BitGrid)
    (hfirst : g.scanOrder.getD 0 false = true) :
    (rlePayload g).getD 0 1 = 0 := by
  cases hso : g.scanOrder with
  | nil =>
    rw [hso] at hfirst
    simp at hfirst
  | cons b t =>
    rw [hso] at hfirst
    simp only [List.getD_cons_zero] at hfirst
    subst hfirst
    rw [rlePayload_eq, hso]
    have hrf : runsSpec (true :: t) = 0 :: bump (runsFromC true t) := by
      unfold runsSpec
      simp [runsFromC]
    rw [hrf]
    obtain ⟨p, ps, hps⟩ : ∃ p ps, bump (runsFromC true t) = p :: ps := by
      cases hb : bump (runsFromC true t) with
      | nil => exact absurd hb (bump_ne_nil _)
      | cons p ps => exact ⟨p, ps, rfl⟩
    rw [hps]
    rw [show mergeEmit 0 (0 :: p :: ps) = (0 + 0) % 256 :: mergeEmit 0 (p :: ps) by
      simp [mergeEmit]]
    rfl

theorem getD_mem_of_lt {α : Type} : ∀ (l : List α) (d : α) (i : Nat), i < l.length →
    l.getD i d ∈ l := by
  intro l
  induction l with
  | nil => intro d i h; simp at h
  | cons a t ih =>
    intro d i h
    cases i with
    | zero => exact List.mem_cons_self a t
    | succ j =>
      exact List.mem_cons_of_mem a (ih d j (by simp only [List.length_cons] at h; omega))

/-! ## The claims -/

set_option maxRecDepth 100000

/-- Claim C1, corrected: the round trip holds only under the additional
hypothesis that every maximal run of every frame fits the `u8` run counter
(`RunsBounded`); without it the counter wraps and the decoded frame differs
(see the counterexample).  Under that hypothesis, encoding a nonempty
sequence of equal-dimension frames and decoding the stream yields one frame
per input grid, with sequential ids starting at 1 and pixel-identical
bitmaps. -/
theorem C1_round_trip {w h : Nat} (hd : DimsSafe w h) (g0 : BitGrid) (gs : List BitGrid)
    (hall : ∀ g ∈ g0 :: gs, g.width = w ∧ g.height = h ∧ g.WF ∧ RunsBounded g.scanOrder) :
    ∃ d0 fs dend,
      VideoDecoder.new ((((g0 :: gs).foldl VideoEncoder.push VideoEncoder.new).encode_to).2)
        = some d0 ∧
      decodeAll (gs.length + 2) d0 = some (fs, dend) ∧
      fs.length = gs.length + 1 ∧
      ∀ i, i < gs.length + 1 →
        (fs.getD i frame0).id = i + 1 ∧
        ∀ x y : Nat, x < w → y < h →
          (fs.getD i frame0).bitmap.get x y
            = ((g0 :: gs).getD i (BitGrid.new 0 0)).get x y := by
  have hall3 : ∀ g ∈ g0 :: gs, g.width = w ∧ g.height = h ∧ g.WF :=
    fun g hg => ⟨(hall g hg).1, (hall g hg).2.1, (hall g hg).2.2.1⟩
  obtain ⟨hg0w, hg0h, -, -⟩ := hall g0 (by simp)
  have hw16 : w < 65536 := by obtain ⟨a, b, c⟩ := hd; omega
  have hh16 : h < 65536 := by obtain ⟨a, b, c⟩ := hd; omega
  obtain ⟨dend, hdec, hreset⟩ := encoded_decode hd g0 gs hall3
  refine ⟨VideoDecoder.mk ((CodecHeader.new (gs.length + 1) w h).toBytes
      ++ ((g0 :: gs).map encodeFrameChunk).flatten) 128 (BitGrid.new w h) 0,
    framesFor 0 (g0 :: gs), dend, ?_, hdec, ?_, ?_⟩
  · rw [encoded_stream_eq g0 gs hg0w hg0h]
    exact encoded_stream_new hw16 hh16 (gs.length + 1) _
  · rw [framesFor_length]
    simp
  · intro i hi
    have hilen : i < (g0 :: gs).length := by simp only [List.length_cons]; omega
    rw [framesFor_getD (g0 :: gs) 0 i hilen]
    refine ⟨by show 0 + i + 1 = i + 1; omega, ?_⟩
    intro x y hx hy
    show (decodedGrid ((g0 :: gs).getD i (BitGrid.new 0 0))).get x y = _
    obtain ⟨hiw, hih, hiWF, hib⟩ := hall _ (getD_mem_of_lt (g0 :: gs) (BitGrid.new 0 0) i hilen)
    exact decodedGrid_get hd _ hiw hih hiWF hib hx hy

/-- Claim C1, counterexample: a single 256×1 all-set frame.  Its single run
of 256 set pixels wraps the `u8` counter to 0, so the decoded first frame
has pixel (0,0) unset while the input had it set. -/
theorem C1_counterexample :
    (VideoDecoder.new ((((g256 :: []).foldl VideoEncoder.push
        VideoEncoder.new).encode_to).2)).map
        (fun d0 => (decodeAll 2 d0).map
          (fun p => p.1.map (fun f => (f.id, f.bitmap.get 0 0))))
      = some (some [(1, false)]) ∧
    g256.get 0 0 = true :=
  ⟨rfl, rfl⟩

/-- Claim C1, witness: the corrected round trip at a concrete 2×2 frame. -/
theorem C1_round_trip_witness :
    DimsSafe 2 2 ∧
    (∀ g ∈ g22 :: [], g.width = 2 ∧ g.height = 2 ∧ g.WF ∧ RunsBounded g.scanOrder) ∧
    ∃ d0 fs dend,
      VideoDecoder.new ((((g22 :: []).foldl VideoEncoder.push VideoEncoder.new).encode_to).2)
        = some d0 ∧
      decodeAll (List.length ([] : List BitGrid) + 2) d0 = some (fs, dend) ∧
      fs.length = List.length ([] : List BitGrid) + 1 ∧
      ∀ i, i < List.length ([] : List BitGrid) + 1 →
        (fs.getD i frame0).id = i + 1 ∧
        ∀ x y : Nat, x < 2 → y < 2 →
          (fs.getD i frame0).bitmap.get x y
            = ((g22 :: []).getD i (BitGrid.new 0 0)).get x y :=
  ⟨by decide, by decide, @C1_round_trip 2 2 (by decide) g22 [] (by decide)⟩

/-- Claim C2, corrected: a `next_frame` call either consumes exactly one
chunk (6-byte header plus the declared payload) and returns a frame with the
next id, or returns no frame with the cursor pinned at the end of the
buffer; the frame counter is indeed untouched on the end-of-stream path, but
on the truncated-payload path the persistent grid is NOT as before the call:
the `mem::swap` dance leaves a 0×0 dummy grid behind (see the
counterexample). -/
theorem C2_next_frame_atomic (d d' : VideoDecoder) (res : Option Frame)
    (h : d.next_frame = some (res, d')) :
    d'.bytes = d.bytes ∧
    (res = none → d'.curr = d.bytes.length ∧ d'.frame_num = d.frame_num ∧
      (d'.bitmap = d.bitmap ∨ d'.bitmap = BitGrid.new 0 0)) ∧
    (∀ f, res = some f → d'.curr = d.curr + 6 + u16at d.bytes (d.curr + 2) ∧
      d'.frame_num = d.frame_num + 1 ∧ f.id = d'.frame_num) := by
  cases res with
  | none =>
    obtain ⟨h1, h2, h3, h4⟩ := VideoDecoder.next_frame_none_cases d d' h
    exact ⟨h1, fun _ => ⟨h2, h3, h4⟩, fun f hf => absurd hf (by simp)⟩
  | some f0 =>
    obtain ⟨h1, h2, h3, h4, -⟩ := VideoDecoder.next_frame_some_cases d d' f0 h
    refine ⟨h1, fun hc => absurd hc (by simp), fun f hf => ?_⟩
    rw [Option.some.injEq] at hf
    subst hf
    exact ⟨h2, h3, h4⟩

/-- Claim C2, counterexample: on a chunk whose declared 5-byte payload
overruns the 2 remaining bytes, `next_frame` returns no frame with the
cursor pinned at the end and the frame counter unchanged — but the persistent
grid is replaced by the 0×0 dummy, so it is not \"as it was before the
call\". -/
theorem C2_counterexample :
    VideoDecoder.new truncBytes = some truncDecoder ∧
    truncDecoder.next_frame = some (none, truncEnd) ∧
    truncEnd.curr = truncBytes.length ∧
    truncEnd.frame_num = truncDecoder.frame_num ∧
    truncEnd.bitmap ≠ truncDecoder.bitmap :=
  ⟨rfl, rfl, rfl, rfl, by decide⟩

/-- Claim C2, witness: the corrected atomicity statement applied to the
truncated-payload decoder. -/
theorem C2_next_frame_atomic_witness :
    truncDecoder.next_frame = some (none, truncEnd) ∧
    (truncEnd.bytes = truncDecoder.bytes ∧
     ((none : Option Frame) = none → truncEnd.curr = truncDecoder.bytes.length ∧
       truncEnd.frame_num = truncDecoder.frame_num ∧
       (truncEnd.bitmap = truncDecoder.bitmap ∨ truncEnd.bitmap = BitGrid.new 0 0)) ∧
     (∀ f, (none : Option Frame) = some f →
       truncEnd.curr = truncDecoder.curr + 6 + u16at truncDecoder.bytes (truncDecoder.curr + 2) ∧
       truncEnd.frame_num = truncDecoder.frame_num + 1 ∧ f.id = truncEnd.frame_num)) :=
  ⟨rfl, C2_next_frame_atomic truncDecoder truncEnd none rfl⟩

/-- Claim C3, corrected: the emitted bytes are the maximal run lengths in
scan order, each reduced mod 256 by the wrapping `u8` counter (with a final
zero counter not flushed), and the first byte is 0 IF the first pixel is
set — but not \"exactly when\": a leading unset run of 256 also wraps to a
first byte of 0 (see the counterexample). -/
theorem C3_rle_encoder (g : BitGrid) :
    rlePayload g = wrapRuns (runsSpec g.scanOrder) ∧
    (g.scanOrder.getD 0 false = true → (rlePayload g).getD 0 1 = 0) :=
  ⟨rlePayload_wrapRuns g, rlePayload_head_zero_of_set g⟩

/-- Claim C3, counterexample: a 257×1 grid whose first 256 pixels are unset
and last pixel set: the first byte of the payload is 0 although the first
pixel is NOT set, refuting the \"exactly when\" direction. -/
theorem C3_counterexample :
    runsSpec g257.scanOrder = [256, 1] ∧
    rlePayload g257 = [0, 1] ∧
    g257.scanOrder.getD 0 false = false := by
  decide

/-- Claim C3, witness: the corrected encoder description at a frame whose
first pixel is set. -/
theorem C3_rle_encoder_witness :
    g256.scanOrder.getD 0 false = true ∧
    (rlePayload g256 = wrapRuns (runsSpec g256.scanOrder) ∧
     (g256.scanOrder.getD 0 false = true → (rlePayload g256).getD 0 1 = 0)) :=
  ⟨by decide, C3_rle_encoder g256⟩

/-- Claim C4, confirmed: for every frame the written chunk is the smaller of
the uncompressed and run-length encodings, and the run-length chunk is
chosen only when strictly smaller — a tie goes to uncompressed. -/
theorem C4_compression_selection (g : BitGrid) :
    (encodeFrameChunk g).length
        = min (compress_uncompressed g).length (compress_runlength g).length ∧
    (encodeFrameChunk g = compress_uncompressed g ∨
      (encodeFrameChunk g = compress_runlength g ∧
        (compress_runlength g).length < (compress_uncompressed g).length)) := by
  unfold encodeFrameChunk
  by_cases hle : (compress_uncompressed g).length ≤ (compress_runlength g).length
  · rw [if_pos hle]
    exact ⟨by omega, Or.inl rfl⟩
  · rw [if_neg hle]
    exact ⟨by omega, Or.inr ⟨rfl, by omega⟩⟩

/-- Claim C5, corrected: the wrap-equation `get(x, y) = get(x mod width,
y mod height)` holds only one period out on each side
(`-width ≤ x < width`, `-height ≤ y < height`): `BitGrid::idx` adds a single
period before taking the truncating `%`, so coordinates further out are not
wrapped to the same cell (see the counterexample). -/
theorem C5_toroidal_wrap (g : BitGrid) (hd : DimsSafe g.width g.height)
    (hw : 0 < g.width) (hh : 0 < g.height) (x y : Int)
    (hx1 : -(g.width : Int) ≤ x) (hx2 : x < (g.width : Int))
    (hy1 : -(g.height : Int) ≤ y) (hy2 : y < (g.height : Int)) :
    g.get x y = g.get (x % (g.width : Int)) (y % (g.height : Int)) := by
  have hxm0 : 0 ≤ x % (g.width : Int) := Int.emod_nonneg x (by omega)
  have hym0 : 0 ≤ y % (g.height : Int) := Int.emod_nonneg y (by omega)
  have hcx : x % (g.width : Int) = (((x % (g.width : Int)).toNat : Nat) : Int) :=
    (Int.toNat_of_nonneg hxm0).symm
  have hcy : y % (g.height : Int) = (((y % (g.height : Int)).toNat : Nat) : Int) :=
    (Int.toNat_of_nonneg hym0).symm
  conv_rhs => rw [hcx, hcy]
  unfold BitGrid.get
  rw [BitGrid.idx_period g hd hw hh hx1 hx2 hy1 hy2]

/-- Claim C5, counterexample: on a 4×1 grid with only cell (3,0) set,
`get(-5, 0)` reads an unset cell while `get((-5) mod 4, 0) = get(3, 0)` is
set: coordinates below `-width` are not wrapped modulo the width. -/
theorem C5_counterexample :
    g41.get (-5) 0 = false ∧
    ((-5 : Int) % (g41.width : Int)) = 3 ∧
    g41.get ((-5 : Int) % (g41.width : Int)) 0 = true := by
  refine ⟨rfl, by decide, by decide⟩

/-- Claim C5, witness: the one-period wrap at x = -3 on the 4×1 grid. -/
theorem C5_toroidal_wrap_witness :
    (DimsSafe g41.width g41.height ∧ 0 < g41.width ∧ 0 < g41.height ∧
      -(g41.width : Int) ≤ -3 ∧ (-3 : Int) < (g41.width : Int) ∧
      -(g41.height : Int) ≤ 0 ∧ (0 : Int) < (g41.height : Int)) ∧
    g41.get (-3) 0 = g41.get ((-3 : Int) % (g41.width : Int)) ((0 : Int) % (g41.height : Int)) :=
  ⟨by decide, C5_toroidal_wrap g41 (by decide) (by decide) (by decide) (-3) 0 (by decide)
    (by decide) (by decide) (by decide)⟩

/-- Claim C6, confirmed: every emitted run-length byte fits a single `u8`;
the encoder does not split an overlong run but stores each maximal run
reduced mod 256; the all-set 255×1 row round-trips exactly, while the
all-set 256×1 row encodes as a wrapped counter of 0 and decodes to an
all-zero buffer. -/
theorem C6_run_counter (g : BitGrid) :
    (∀ b ∈ rlePayload g, b < 256) ∧
    rlePayload g = wrapRuns (runsSpec g.scanOrder) ∧
    (runsSpec g255.scanOrder = [0, 255] ∧ decodedGrid g255 = g255) ∧
    (runsSpec g256.scanOrder = [0, 256] ∧ rlePayload g256 = [0] ∧
      (decodedGrid g256).buf = List.replicate 32 0 ∧ g256.buf = List.replicate 32 255) :=
  ⟨rlePayload_bytes_lt g, rlePayload_wrapRuns g, ⟨by decide, by decide⟩, by decide⟩

/-- Claim C6, witness: the counter-limit statement applied to the grid with
a 256-long unset run. -/
theorem C6_run_counter_witness :
    (∀ b ∈ rlePayload g257, b < 256) ∧
    rlePayload g257 = wrapRuns (runsSpec g257.scanOrder) ∧
    (runsSpec g255.scanOrder = [0, 255] ∧ decodedGrid g255 = g255) ∧
    (runsSpec g256.scanOrder = [0, 256] ∧ rlePayload g256 = [0] ∧
      (decodedGrid g256).buf = List.replicate 32 0 ∧ g256.buf = List.replicate 32 255) :=
  C6_run_counter g257

/-- Claim C7, confirmed: `reset` rewinds the cursor to just past the header,
clears the persistent grid and zeroes the frame counter; decoding an encoded
stream to exhaustion, resetting, and decoding again produces the identical
frame sequence on every repetition. -/
theorem C7_idempotent_replay {w h : Nat} (hd : DimsSafe w h) (g0 : BitGrid)
    (gs : List BitGrid)
    (hall : ∀ g ∈ g0 :: gs, g.width = w ∧ g.height = h ∧ g.WF) :
    (∀ d : VideoDecoder, d.reset.curr = CodecHeader.SIZE ∧
      d.reset.bitmap = d.bitmap.clear ∧ d.reset.frame_num = 0) ∧
    ∃ d0, VideoDecoder.new ((((g0 :: gs).foldl VideoEncoder.push
        VideoEncoder.new).encode_to).2) = some d0 ∧
      ∀ k, replayAll (gs.length + 2) k d0
        = some (List.replicate k (framesFor 0 (g0 :: gs))) := by
  refine ⟨fun d => ⟨rfl, rfl, rfl⟩, ?_⟩
  obtain ⟨hg0w, hg0h, -⟩ := hall g0 (by simp)
  have hw16 : w < 65536 := by obtain ⟨a, b, c⟩ := hd; omega
  have hh16 : h < 65536 := by obtain ⟨a, b, c⟩ := hd; omega
  obtain ⟨dend, hdec, hreset⟩ := encoded_decode hd g0 gs hall
  refine ⟨VideoDecoder.mk ((CodecHeader.new (gs.length + 1) w h).toBytes
      ++ ((g0 :: gs).map encodeFrameChunk).flatten) 128 (BitGrid.new w h) 0, ?_, ?_⟩
  · rw [encoded_stream_eq g0 gs hg0w hg0h]
    exact encoded_stream_new hw16 hh16 (gs.length + 1) _
  · intro k
    induction k with
    | zero => rfl
    | succ m ihm =>
      unfold replayAll
      rw [hdec]
      show (match replayAll (gs.length + 2) m dend.reset with
        | none => none
        | some rest => some (framesFor 0 (g0 :: gs) :: rest)) = _
      rw [hreset, ihm]
      rfl

/-- Claim C7, witness: the replay statement at a concrete 1×1 stream. -/
theorem C7_idempotent_replay_witness :
    DimsSafe 1 1 ∧
    (∀ g ∈ BitGrid.new 1 1 :: [], g.width = 1 ∧ g.height = 1 ∧ g.WF) ∧
    ((∀ d : VideoDecoder, d.reset.curr = CodecHeader.SIZE ∧
      d.reset.bitmap = d.bitmap.clear ∧ d.reset.frame_num = 0) ∧
     ∃ d0, VideoDecoder.new ((((BitGrid.new 1 1 :: []).foldl VideoEncoder.push
         VideoEncoder.new).encode_to).2) = some d0 ∧
       ∀ k, replayAll (List.length ([] : List BitGrid) + 2) k d0
         = some (List.replicate k (framesFor 0 (BitGrid.new 1 1 :: [])))) :=
  ⟨by decide, by decide, @C7_idempotent_replay 1 1 (by decide) (BitGrid.new 1 1) []
    (by decide)⟩

/-- Claim C8, confirmed: once `next_frame` returns no frame, the decoder is a
fixpoint of `next_frame` — every subsequent call without a `reset` returns no
frame again, and any number of further `next_frame` calls collects no
frames. -/
theorem C8_exhaustion (d d' : VideoDecoder) (h : d.next_frame = some (none, d')) :
    d'.next_frame = some (none, d') ∧ ∀ k, decodeAll k d' = some ([], d') := by
  obtain ⟨hb, hc, -, -⟩ := VideoDecoder.next_frame_none_cases d d' h
  have hce : d'.curr = d'.bytes.length := by rw [hc, hb]
  exact ⟨VideoDecoder.next_frame_at_end d' hce, decodeAll_at_end d' hce⟩

/-- Claim C8, witness: exhaustion applied to the empty-stream decoder, which
reports end of stream immediately. -/
theorem C8_exhaustion_witness :
    emptyDecoder.next_frame = some (none, emptyDecoder) ∧
    (emptyDecoder.next_frame = some (none, emptyDecoder) ∧
     ∀ k, decodeAll k emptyDecoder = some ([], emptyDecoder)) :=
  ⟨rfl, C8_exhaustion emptyDecoder emptyDecoder rfl⟩

/-- Claim C9, confirmed: encoding zero frames produces exactly the 128-byte
header — magic, version, zero frame count, zero dimensions, all-zero
reserved region, no chunks — and a decoder built on it returns no frame on
every `next_frame` call. -/
theorem C9_empty_stream :
    (VideoEncoder.new.encode_to).2
      = MAGIC ++ u32le VERSION ++ u32le 0 ++ u16le 0 ++ u16le 0 ++ List.replicate 104 0 ∧
    (VideoEncoder.new.encode_to).2.length = 128 ∧
    VideoDecoder.new (VideoEncoder.new.encode_to).2 = some emptyDecoder ∧
    emptyDecoder.curr = (VideoEncoder.new.encode_to).2.length ∧
    emptyDecoder.next_frame = some (none, emptyDecoder) ∧
    ∀ k, decodeAll k emptyDecoder = some ([], emptyDecoder) :=
  ⟨rfl, rfl, rfl, rfl, rfl, decodeAll_at_end emptyDecoder rfl⟩

/-- Claim C10, confirmed: a successful `encode_to` drains the frame queue but
keeps the recorded dimensions, so a later encode on the same encoder — even
of frames with different dimensions — still writes a header carrying the
original first frame's width and height. -/
theorem C10_encoder_state (e : VideoEncoder) (w h : Nat) (he : e.dims = some (w, h)) :
    (e.encode_to).1.frame_count = 0 ∧
    (e.encode_to).1.dims = some (w, h) ∧
    ∀ g2 : BitGrid, ((e.encode_to).1.push g2).dims = some (w, h) ∧
      (((e.encode_to).1.push g2).encode_to).2.take 128 = (CodecHeader.new 1 w h).toBytes := by
  have h1 : (e.encode_to).1 = { e with frames := [] } := rfl
  refine ⟨rfl, by rw [h1]; exact he, ?_⟩
  intro g2
  have hpush : ({ e with frames := [] } : VideoEncoder).push g2
      = VideoEncoder.mk [g2] (some (w, h)) := by
    unfold VideoEncoder.push
    rw [VideoEncoder.mk.injEq]
    constructor
    · rfl
    · show (match e.dims with
        | none => some g2.dims
        | some d => some d) = some (w, h)
      rw [he]
  constructor
  · rw [h1, hpush]
  · rw [h1, hpush]
    show ((CodecHeader.new 1 w h).toBytes ++ ([g2].map encodeFrameChunk).flatten).take 128
        = (CodecHeader.new 1 w h).toBytes
    exact List.take_left' (header_toBytes_new_length 1 w h)

/-- Claim C10, witness: the dimensions recorded by the first push survive
`encode_to` on a concrete 3×2 encoder. -/
theorem C10_encoder_state_witness :
    (VideoEncoder.new.push (BitGrid.new 3 2)).dims = some (3, 2) ∧
    ((VideoEncoder.new.push (BitGrid.new 3 2)).encode_to.1.frame_count = 0 ∧
     (VideoEncoder.new.push (BitGrid.new 3 2)).encode_to.1.dims = some (3, 2) ∧
     ∀ g2 : BitGrid,
       ((VideoEncoder.new.push (BitGrid.new 3 2)).encode_to.1.push g2).dims = some (3, 2) ∧
       (((VideoEncoder.new.push (BitGrid.new 3 2)).encode_to.1.push g2).encode_to).2.take 128
         = (CodecHeader.new 1 3 2).toBytes) :=
  ⟨by decide, C10_encoder_state (VideoEncoder.new.push (BitGrid.new 3 2)) 3 2 (by decide)⟩

end PicoCodec
